import Mathlib

/-!
Verification development for the string_art repository.

The Rust sources are shallowly embedded: machine integers (i64) are modelled
as integers with explicit two's-complement wrap-around where the source
overflows, and with explicit clamping where the source uses saturating
arithmetic.  Floating-point geometry is modelled over the rationals; where a
square root is required (the length of a line), the length is taken as an
explicit argument constrained by a hypothesis.
-/

namespace StringArt

/-! ## 64-bit integer model -/

/-- The modulus of 64-bit machine arithmetic. -/
def i64Mod : ℤ := 2 ^ 64

/-- Smallest value of Rust's i64. -/
def i64Lo : ℤ := -(2 ^ 63)

/-- Largest value of Rust's i64. -/
def i64Hi : ℤ := 2 ^ 63 - 1

/-- Two's-complement wrap-around into the i64 range: the behaviour of
overflowing i64 arithmetic in release builds. -/
def wrap (x : ℤ) : ℤ := (x + 2 ^ 63) % 2 ^ 64 - 2 ^ 63

/-- Wrapping i64 addition. -/
def i64add (x y : ℤ) : ℤ := wrap (x + y)

/-- Wrapping i64 subtraction. -/
def i64sub (x y : ℤ) : ℤ := wrap (x - y)

/-- Wrapping i64 multiplication. -/
def i64mul (x y : ℤ) : ℤ := wrap (x * y)

/-- Wrapping i64 negation: the behaviour of unary minus on i64. -/
def i64neg (x : ℤ) : ℤ := wrap (-x)

/-- Clamp into the i64 range, as Rust's saturating operations do. -/
def clampI64 (x : ℤ) : ℤ := max i64Lo (min i64Hi x)

/-- Rust's i64::saturating_add. -/
def satAdd (x y : ℤ) : ℤ := clampI64 (x + y)

/-- Rust's i64::saturating_sub. -/
def satSub (x y : ℤ) : ℤ := clampI64 (x - y)

/-- Rust's i64::saturating_mul. -/
def satMul (x y : ℤ) : ℤ := clampI64 (x * y)

/-- Summation of a list of i64 values, wrapping at every step, as the
Sum instance for i64 does. -/
def i64sum (l : List ℤ) : ℤ := l.foldl i64add 0

theorem wrap_modEq (x : ℤ) : wrap x ≡ x [ZMOD i64Mod] := by
  have h : (x + 2 ^ 63) % 2 ^ 64 ≡ x + 2 ^ 63 [ZMOD (2 : ℤ) ^ 64] :=
    Int.emod_emod_of_dvd _ dvd_rfl
  have h2 : (x + 2 ^ 63) % 2 ^ 64 - 2 ^ 63 ≡ x + 2 ^ 63 - 2 ^ 63 [ZMOD (2 : ℤ) ^ 64] :=
    Int.ModEq.sub_right _ h
  simpa [wrap, i64Mod] using h2

theorem wrap_congr {x y : ℤ} (h : x ≡ y [ZMOD i64Mod]) : wrap x = wrap y := by
  have hx : (x + 2 ^ 63) % 2 ^ 64 = (y + 2 ^ 63) % 2 ^ 64 := by
    have := Int.ModEq.add_right (2 ^ 63) h
    simpa [Int.ModEq, i64Mod] using this
  unfold wrap
  rw [hx]

theorem wrap_wrap_add_left (x y : ℤ) : wrap (wrap x + y) = wrap (x + y) :=
  wrap_congr (Int.ModEq.add_right y (wrap_modEq x))

theorem wrap_wrap_sub (x y : ℤ) : wrap (wrap x - wrap y) = wrap (x - y) :=
  Int.ModEq.sub (wrap_modEq x) (wrap_modEq y) |> wrap_congr

theorem wrap_eq_self {x : ℤ} (h1 : i64Lo ≤ x) (h2 : x ≤ i64Hi) : wrap x = x := by
  have h0 : (0 : ℤ) ≤ x + 2 ^ 63 := by
    have : -(2 ^ 63 : ℤ) ≤ x := h1
    linarith
  have hlt : x + 2 ^ 63 < 2 ^ 64 := by
    have : x ≤ 2 ^ 63 - 1 := h2
    have h64 : (2 : ℤ) ^ 64 = 2 ^ 63 + 2 ^ 63 := by norm_num
    linarith
  unfold wrap
  rw [Int.emod_eq_of_lt h0 hlt]
  ring

theorem i64sum_foldl (l : List ℤ) :
    ∀ acc : ℤ, l.foldl i64add (wrap acc) = wrap (acc + l.sum) := by
  induction l with
  | nil => intro acc; simp
  | cons x t ih =>
      intro acc
      have hstep : i64add (wrap acc) x = wrap (acc + x) := by
        simpa [i64add] using wrap_wrap_add_left acc x
      calc (x :: t).foldl i64add (wrap acc)
          = t.foldl i64add (i64add (wrap acc) x) := by simp [List.foldl]
        _ = t.foldl i64add (wrap (acc + x)) := by rw [hstep]
        _ = wrap (acc + x + t.sum) := ih (acc + x)
        _ = wrap (acc + (x :: t).sum) := by
              simp [List.sum_cons]; ring_nf

theorem i64sum_eq_wrap (l : List ℤ) : i64sum l = wrap l.sum := by
  have h0 : wrap 0 = 0 := by decide
  have := i64sum_foldl l 0
  rw [h0] at this
  simpa [i64sum] using this

theorem sum_map_wrap_modEq (l : List ℤ) : (l.map wrap).sum ≡ l.sum [ZMOD i64Mod] := by
  induction l with
  | nil => simp
  | cons x t ih =>
      simpa [List.map, List.sum_cons] using Int.ModEq.add (wrap_modEq x) ih

/-! ## RGB color algebra (src/src/imagery.rs) -/

/-- RGB with signed 64-bit channels (struct Rgb in imagery.rs). -/
structure Rgb where
  r : ℤ
  g : ℤ
  b : ℤ
deriving DecidableEq, Repr

/-- All three channels lie in the i64 range. -/
def rgbInRange (c : Rgb) : Prop := i64Lo ≤ c.r ∧ c.r ≤ i64Hi ∧
  i64Lo ≤ c.g ∧ c.g ≤ i64Hi ∧ i64Lo ≤ c.b ∧ c.b ≤ i64Hi

instance (c : Rgb) : Decidable (rgbInRange c) := by
  unfold rgbInRange; infer_instance

/-- impl Add for Rgb: channel-wise saturating_add. -/
def Rgb.add (x y : Rgb) : Rgb :=
  ⟨satAdd x.r y.r, satAdd x.g y.g, satAdd x.b y.b⟩

/-- impl Sub for Rgb: channel-wise saturating_sub. -/
def Rgb.sub (x y : Rgb) : Rgb :=
  ⟨satSub x.r y.r, satSub x.g y.g, satSub x.b y.b⟩

/-- impl Neg for Rgb: plain unary minus per channel.  On i64, plain negation
of i64::MIN overflows; in release builds it wraps, which is what `wrap`
captures. -/
def Rgb.neg (x : Rgb) : Rgb := ⟨i64neg x.r, i64neg x.g, i64neg x.b⟩

/-- Modelled from the spec: the specification's claim that unary negation is
also saturating per channel (spec section 4.1).  This definition follows the
spec's words and exists only to be compared with Rgb.neg, which is the
embedding of the source. -/
def rgbNegSatSpec (x : Rgb) : Rgb :=
  ⟨clampI64 (-x.r), clampI64 (-x.g), clampI64 (-x.b)⟩

/-! ## Reference image and delta scoring (src/src/imagery.rs) -/

/-- A pixel coordinate: x then y, both natural numbers (Point). -/
abbrev Pt := ℕ × ℕ

/-- RefImage contents: rows of pixels (Vec of Vec of Rgb), indexed row-major
as image[y][x]. -/
abbrev Img := List (List Rgb)

/-- Read a pixel: self.0[point.y][point.x]. -/
def getPx (I : Img) (p : Pt) : Rgb := (I.getD p.2 []).getD p.1 ⟨0, 0, 0⟩

/-- Write a pixel in place. -/
def setPx (I : Img) (p : Pt) (v : Rgb) : Img :=
  I.set p.2 ((I.getD p.2 []).set p.1 v)

/-- The point indexes an existing pixel of the image. -/
def inBounds (I : Img) (p : Pt) : Prop :=
  p.2 < I.length ∧ p.1 < (I.getD p.2 []).length

instance (I : Img) (p : Pt) : Decidable (inBounds I p) := by
  unfold inBounds; infer_instance

/-- fn pixel_score: r*r + g*g + b*b in i64 arithmetic. -/
def pixel_score (c : Rgb) : ℤ :=
  i64add (i64add (i64mul c.r c.r) (i64mul c.g c.g)) (i64mul c.b c.b)

/-- Mathematical (unwrapped) squared norm of a pixel. -/
def psZ (c : Rgb) : ℤ := c.r * c.r + c.g * c.g + c.b * c.b

/-- RefImage::score: sum of pixel_score over all pixels, in i64 arithmetic. -/
def scoreI (I : Img) : ℤ := i64sum (I.flatten.map pixel_score)

/-- Mathematical (unwrapped) total score. -/
def plainScore (I : Img) : ℤ := (I.flatten.map psZ).sum

/-- A pixel-line as a list of point/color entries (the contents of the
PixLine hash map; keys are distinct). -/
abbrev Entries := List (Pt × Rgb)

/-- impl AddAssign for RefImage: add each entry pointwise (saturating). -/
def addAssignLine (I : Img) (es : Entries) : Img :=
  es.foldl (fun J e => setPx J e.1 (Rgb.add (getPx J e.1) e.2)) I

/-- impl SubAssign for RefImage: subtract each entry pointwise (saturating). -/
def subAssignLine (I : Img) (es : Entries) : Img :=
  es.foldl (fun J e => setPx J e.1 (Rgb.sub (getPx J e.1) e.2)) I

/-- PixLine::negated: negate every entry's color (with Rgb's plain negation). -/
def negatedLine (es : Entries) : Entries := es.map (fun e => (e.1, Rgb.neg e.2))

/-- RefImage::score_change_on_add. -/
def scoreChangeOnAdd (I : Img) (es : Entries) : ℤ :=
  i64sum (es.map (fun e =>
    i64sub (pixel_score (Rgb.add (getPx I e.1) e.2)) (pixel_score (getPx I e.1))))

/-- RefImage::score_change_on_sub: score_change_on_add of the negated line. -/
def scoreChangeOnSub (I : Img) (es : Entries) : ℤ :=
  scoreChangeOnAdd I (negatedLine es)

theorem pixel_score_eq_wrap (c : Rgb) : pixel_score c = wrap (psZ c) := by
  unfold pixel_score psZ i64add i64mul
  rw [wrap_wrap_add_left]
  have h1 : wrap (c.r * c.r) + wrap (c.g * c.g) ≡ c.r * c.r + c.g * c.g [ZMOD i64Mod] :=
    Int.ModEq.add (wrap_modEq _) (wrap_modEq _)
  have h2 : wrap (c.r * c.r) + wrap (c.g * c.g) + wrap (c.b * c.b)
      ≡ c.r * c.r + c.g * c.g + c.b * c.b [ZMOD i64Mod] :=
    Int.ModEq.add h1 (wrap_modEq _)
  exact wrap_congr h2

theorem scoreI_eq_wrap_plain (I : Img) : scoreI I = wrap (plainScore I) := by
  unfold scoreI plainScore
  rw [i64sum_eq_wrap]
  have hmap : I.flatten.map pixel_score = (I.flatten.map psZ).map wrap := by
    rw [List.map_map]
    exact List.map_congr_left (fun c _ => pixel_score_eq_wrap c)
  rw [hmap]
  exact wrap_congr (sum_map_wrap_modEq _)

/-! ## Helper lemmas about list updates -/

theorem getD_set_ne {α : Type} (l : List α) {i j : ℕ} (h : i ≠ j) (v d : α) :
    (l.set i v).getD j d = l.getD j d := by
  induction l generalizing i j with
  | nil => simp
  | cons x t ih =>
      cases i with
      | zero =>
          cases j with
          | zero => exact absurd rfl h
          | succ j => simp [List.set]
      | succ i =>
          cases j with
          | zero => simp [List.set]
          | succ j =>
              simp only [List.set, List.getD_cons_succ]
              have hij : i ≠ j := by omega
              exact ih hij

theorem getD_set_self {α : Type} (l : List α) {i : ℕ} (h : i < l.length) (v d : α) :
    (l.set i v).getD i d = v := by
  induction l generalizing i with
  | nil => simp at h
  | cons x t ih =>
      cases i with
      | zero => simp [List.set]
      | succ i =>
          simp only [List.set, List.getD_cons_succ]
          exact ih (by simpa using h)

theorem sum_map_set {α : Type} (f : α → ℤ) (d : α) :
    ∀ (l : List α) (i : ℕ), i < l.length → ∀ v : α,
      ((l.set i v).map f).sum = (l.map f).sum - f (l.getD i d) + f v := by
  intro l
  induction l with
  | nil => intro i h; simp at h
  | cons x t ih =>
      intro i h v
      cases i with
      | zero => simp [List.set]; ring
      | succ i =>
          simp only [List.set, List.map, List.sum_cons, List.getD_cons_succ]
          rw [ih i (by simpa using h) v]
          ring

/-! ## Score bookkeeping for single-pixel updates -/

theorem plainScore_rows (I : Img) :
    plainScore I = (I.map (fun row => (row.map psZ).sum)).sum := by
  unfold plainScore
  rw [List.map_flatten, List.sum_flatten, List.map_map]
  rfl

theorem plainScore_setPx (I : Img) (p : Pt) (v : Rgb) (h : inBounds I p) :
    plainScore (setPx I p v) = plainScore I - psZ (getPx I p) + psZ v := by
  obtain ⟨hy, hx⟩ := h
  unfold setPx getPx
  rw [plainScore_rows, plainScore_rows]
  rw [sum_map_set (fun row => (row.map psZ).sum) [] I p.2 hy]
  rw [sum_map_set psZ ⟨0, 0, 0⟩ (I.getD p.2 []) p.1 hx]
  ring

theorem getPx_setPx_ne (I : Img) {p q : Pt} (h : q ≠ p) (v : Rgb) :
    getPx (setPx I p v) q = getPx I q := by
  unfold getPx setPx
  by_cases h2 : q.2 = p.2
  · have h1 : q.1 ≠ p.1 := fun hh => h (Prod.ext hh h2)
    by_cases hy : p.2 < I.length
    · rw [h2, getD_set_self I hy]
      exact getD_set_ne _ (fun hh => h1 hh.symm) v _
    · rw [List.set_eq_of_length_le (by omega)]
  · rw [getD_set_ne I (fun hh => h2 hh.symm) _ []]

theorem inBounds_setPx (I : Img) (p : Pt) (v : Rgb) (q : Pt) :
    inBounds (setPx I p v) q ↔ inBounds I q := by
  unfold inBounds setPx
  rw [List.length_set]
  by_cases h2 : q.2 = p.2
  · by_cases hy : p.2 < I.length
    · rw [h2, getD_set_self I hy, List.length_set]
    · rw [List.set_eq_of_length_le (by omega)]
  · rw [getD_set_ne I (fun hh => h2 hh.symm) _ []]

/-! ## Exactness of delta scoring (claim C1) -/

/-- The per-entry mathematical score difference of adding an entry on top of
image I. -/
def entryDiff (I : Img) (e : Pt × Rgb) : ℤ :=
  psZ (Rgb.add (getPx I e.1) e.2) - psZ (getPx I e.1)

theorem plainScore_addAssign :
    ∀ (es : Entries) (I : Img), (es.map Prod.fst).Nodup →
      (∀ e ∈ es, inBounds I e.1) →
      plainScore (addAssignLine I es) = plainScore I + (es.map (entryDiff I)).sum := by
  intro es
  induction es with
  | nil => intro I _ _; simp [addAssignLine]
  | cons e t ih =>
      intro I hnd hb
      have hbe : inBounds I e.1 := hb e (List.mem_cons_self ..)
      have hnd' : (t.map Prod.fst).Nodup := (List.nodup_cons.mp hnd).2
      have hemem : e.1 ∉ t.map Prod.fst := (List.nodup_cons.mp hnd).1
      set I1 := setPx I e.1 (Rgb.add (getPx I e.1) e.2) with hI1
      have hb1 : ∀ e' ∈ t, inBounds I1 e'.1 := by
        intro e' he'
        rw [hI1, inBounds_setPx]
        exact hb e' (List.mem_cons_of_mem _ he')
      have hget1 : ∀ e' ∈ t, getPx I1 e'.1 = getPx I e'.1 := by
        intro e' he'
        have hne : e'.1 ≠ e.1 := by
          intro hh
          exact hemem (hh ▸ List.mem_map_of_mem Prod.fst he')
        exact getPx_setPx_ne I hne _
      have hstep : addAssignLine I (e :: t) = addAssignLine I1 t := by
        simp [addAssignLine, hI1]
      rw [hstep, ih I1 hnd' hb1]
      have hsc1 : plainScore I1 = plainScore I + entryDiff I e := by
        rw [hI1, plainScore_setPx I e.1 _ hbe]
        unfold entryDiff
        ring
      have hmapeq : t.map (entryDiff I1) = t.map (entryDiff I) := by
        apply List.map_congr_left
        intro e' he'
        unfold entryDiff
        rw [hget1 e' he']
      rw [hmapeq, hsc1]
      simp [List.sum_cons]
      ring

theorem clampI64_eq_self {z : ℤ} (h1 : i64Lo ≤ z) (h2 : z ≤ i64Hi) : clampI64 z = z := by
  unfold clampI64 i64Lo i64Hi at *
  omega

theorem clampI64_mem (z : ℤ) : i64Lo ≤ clampI64 z ∧ clampI64 z ≤ i64Hi := by
  unfold clampI64 i64Lo i64Hi
  omega

/-- A color whose channels are strictly above i64::MIN (and in range). -/
def chanStrict (c : Rgb) : Prop :=
  i64Lo < c.r ∧ c.r ≤ i64Hi ∧ i64Lo < c.g ∧ c.g ≤ i64Hi ∧ i64Lo < c.b ∧ c.b ≤ i64Hi

instance (c : Rgb) : Decidable (chanStrict c) := by
  unfold chanStrict; infer_instance

theorem i64neg_eq_neg {y : ℤ} (h1 : i64Lo < y) (h2 : y ≤ i64Hi) : i64neg y = -y := by
  unfold i64neg
  apply wrap_eq_self
  · unfold i64Lo i64Hi at *; omega
  · unfold i64Lo i64Hi at *; omega

theorem rgb_sub_eq_add_neg {c : Rgb} (hc : chanStrict c) (a : Rgb) :
    Rgb.sub a c = Rgb.add a (Rgb.neg c) := by
  obtain ⟨h1, h2, h3, h4, h5, h6⟩ := hc
  unfold Rgb.sub Rgb.add Rgb.neg satSub satAdd
  rw [i64neg_eq_neg h1 h2, i64neg_eq_neg h3 h4, i64neg_eq_neg h5 h6]
  simp [sub_eq_add_neg]

theorem subAssignLine_eq_addAssign_negated :
    ∀ (es : Entries) (I : Img), (∀ e ∈ es, chanStrict e.2) →
      subAssignLine I es = addAssignLine I (negatedLine es) := by
  intro es
  induction es with
  | nil => intro I _; rfl
  | cons e t ih =>
      intro I hc
      have hce : chanStrict e.2 := hc e (List.mem_cons_self ..)
      have hct : ∀ e' ∈ t, chanStrict e'.2 := fun e' he' => hc e' (List.mem_cons_of_mem _ he')
      have h1 : subAssignLine I (e :: t)
          = subAssignLine (setPx I e.1 (Rgb.sub (getPx I e.1) e.2)) t := by
        simp [subAssignLine]
      have h2 : addAssignLine I (negatedLine (e :: t))
          = addAssignLine (setPx I e.1 (Rgb.add (getPx I e.1) (Rgb.neg e.2))) (negatedLine t) := by
        simp [addAssignLine, negatedLine]
      rw [h1, h2, ← rgb_sub_eq_add_neg hce]
      exact ih _ hct

theorem scoreChange_exact_add (I : Img) (es : Entries)
    (hnd : (es.map Prod.fst).Nodup) (hb : ∀ e ∈ es, inBounds I e.1) :
    i64sub (scoreI (addAssignLine I es)) (scoreI I) = scoreChangeOnAdd I es := by
  have hplain := plainScore_addAssign es I hnd hb
  rw [scoreI_eq_wrap_plain, scoreI_eq_wrap_plain]
  unfold i64sub
  rw [wrap_wrap_sub, hplain]
  unfold scoreChangeOnAdd
  rw [i64sum_eq_wrap]
  apply wrap_congr
  have hmap : es.map (fun e =>
      i64sub (pixel_score (Rgb.add (getPx I e.1) e.2)) (pixel_score (getPx I e.1)))
      = (es.map (entryDiff I)).map wrap := by
    rw [List.map_map]
    apply List.map_congr_left
    intro e _
    show i64sub (pixel_score (Rgb.add (getPx I e.1) e.2)) (pixel_score (getPx I e.1))
        = wrap (entryDiff I e)
    unfold i64sub entryDiff
    rw [pixel_score_eq_wrap, pixel_score_eq_wrap, wrap_wrap_sub]
  rw [hmap]
  calc plainScore I + (es.map (entryDiff I)).sum - plainScore I
      = (es.map (entryDiff I)).sum := by ring
    _ ≡ ((es.map (entryDiff I)).map wrap).sum [ZMOD i64Mod] :=
        (sum_map_wrap_modEq _).symm

/-- C1: for every in-bounds pixel-line with distinct keys, the in-place update
of a RefImage changes its score by exactly the corresponding delta-scoring
prediction.  The addition direction holds unconditionally; the subtraction
direction additionally requires every channel of the line to lie strictly
above i64::MIN, because score_change_on_sub negates the line with plain (not
saturating) negation while SubAssign uses saturating subtraction. -/
theorem scoreChange_exact (I : Img) (es : Entries)
    (hnd : (es.map Prod.fst).Nodup) (hb : ∀ e ∈ es, inBounds I e.1) :
    i64sub (scoreI (addAssignLine I es)) (scoreI I) = scoreChangeOnAdd I es ∧
    ((∀ e ∈ es, chanStrict e.2) →
      i64sub (scoreI (subAssignLine I es)) (scoreI I) = scoreChangeOnSub I es) := by
  refine ⟨scoreChange_exact_add I es hnd hb, ?_⟩
  intro hc
  rw [subAssignLine_eq_addAssign_negated es I hc]
  unfold scoreChangeOnSub
  have hnd' : ((negatedLine es).map Prod.fst).Nodup := by
    unfold negatedLine
    rw [List.map_map]
    exact hnd
  have hb' : ∀ e ∈ negatedLine es, inBounds I e.1 := by
    intro e he
    unfold negatedLine at he
    obtain ⟨e0, he0, rfl⟩ := List.mem_map.mp he
    exact hb e0 he0
  exact scoreChange_exact_add I (negatedLine es) hnd' hb'

/-- Witness image for the C1 theorem. -/
def exImgC1 : Img := [[⟨3, -2, 7⟩, ⟨0, 0, 0⟩], [⟨-4, 5, 6⟩, ⟨1, 1, 1⟩]]

/-- Witness pixel-line for the C1 theorem. -/
def exLineC1 : Entries := [((0, 0), ⟨10, -20, 30⟩), ((1, 1), ⟨-5, 4, -3⟩)]

/-- Witness for C1: the theorem applied at a concrete image and line. -/
theorem scoreChange_exact_witness :
    i64sub (scoreI (addAssignLine exImgC1 exLineC1)) (scoreI exImgC1)
        = scoreChangeOnAdd exImgC1 exLineC1 ∧
    i64sub (scoreI (subAssignLine exImgC1 exLineC1)) (scoreI exImgC1)
        = scoreChangeOnSub exImgC1 exLineC1 := by
  have h := scoreChange_exact exImgC1 exLineC1 (by decide) (by decide)
  exact ⟨h.1, h.2 (by decide)⟩

set_option maxRecDepth 4000 in
/-- Counterexample to C1 as stated: on the one-pixel image 0 and the
pixel-line carrying channel value i64::MIN, the subtraction update changes
the score by 1 while score_change_on_sub predicts 0. -/
theorem scoreChange_sub_counterexample :
    i64sub (scoreI (subAssignLine [[⟨0, 0, 0⟩]] [((0, 0), ⟨-(2 ^ 63), 0, 0⟩)]))
        (scoreI [[⟨0, 0, 0⟩]])
      ≠ scoreChangeOnSub [[⟨0, 0, 0⟩]] [((0, 0), ⟨-(2 ^ 63), 0, 0⟩)] := by
  decide

/-- C8: addition and subtraction on Rgb saturate channel-wise at the i64
bounds; negation, however, is plain two's-complement negation: exact for
channels strictly above i64::MIN and wrapping (not saturating) at i64::MIN. -/
theorem rgb_arith_saturates (x y : Rgb) (_hx : rgbInRange x) (_hy : rgbInRange y) :
    rgbInRange (Rgb.add x y) ∧ rgbInRange (Rgb.sub x y) ∧
    Rgb.add x y = ⟨max i64Lo (min i64Hi (x.r + y.r)), max i64Lo (min i64Hi (x.g + y.g)),
      max i64Lo (min i64Hi (x.b + y.b))⟩ ∧
    Rgb.sub x y = ⟨max i64Lo (min i64Hi (x.r - y.r)), max i64Lo (min i64Hi (x.g - y.g)),
      max i64Lo (min i64Hi (x.b - y.b))⟩ ∧
    (i64Lo ≤ x.r + y.r → x.r + y.r ≤ i64Hi → (Rgb.add x y).r = x.r + y.r) ∧
    (i64Hi < x.r + y.r → (Rgb.add x y).r = i64Hi) ∧
    (x.r + y.r < i64Lo → (Rgb.add x y).r = i64Lo) ∧
    (chanStrict x → Rgb.neg x = ⟨-x.r, -x.g, -x.b⟩) ∧
    Rgb.neg ⟨i64Lo, 0, 0⟩ = ⟨i64Lo, 0, 0⟩ := by
  refine ⟨?_, ?_, rfl, rfl, ?_, ?_, ?_, ?_, by decide⟩
  · exact ⟨(clampI64_mem _).1, (clampI64_mem _).2, (clampI64_mem _).1,
      (clampI64_mem _).2, (clampI64_mem _).1, (clampI64_mem _).2⟩
  · exact ⟨(clampI64_mem _).1, (clampI64_mem _).2, (clampI64_mem _).1,
      (clampI64_mem _).2, (clampI64_mem _).1, (clampI64_mem _).2⟩
  · intro h1 h2
    exact clampI64_eq_self h1 h2
  · intro h
    show clampI64 (x.r + y.r) = i64Hi
    unfold clampI64 i64Lo i64Hi at *
    omega
  · intro h
    show clampI64 (x.r + y.r) = i64Lo
    unfold clampI64 i64Lo i64Hi at *
    omega
  · intro hs
    obtain ⟨h1, h2, h3, h4, h5, h6⟩ := hs
    unfold Rgb.neg
    rw [i64neg_eq_neg h1 h2, i64neg_eq_neg h3 h4, i64neg_eq_neg h5 h6]

/-- Witness for C8 at concrete colors. -/
theorem rgb_arith_saturates_witness :
    rgbInRange (Rgb.add ⟨1, 2, 3⟩ ⟨4, 5, 6⟩) ∧
    Rgb.neg ⟨1, 2, 3⟩ = ⟨-1, -2, -3⟩ := by
  have h := rgb_arith_saturates ⟨1, 2, 3⟩ ⟨4, 5, 6⟩ (by decide) (by decide)
  exact ⟨h.1, (h.2.2.2.2.2.2.2.1) (by decide)⟩

/-- Counterexample to C8 as stated: unary negation does not saturate at the
i64 bounds; at i64::MIN the source's plain negation wraps back to i64::MIN,
while a saturating negation (as the spec describes) would give i64::MAX. -/
theorem rgb_neg_not_saturating :
    Rgb.neg ⟨i64Lo, 0, 0⟩ ≠ rgbNegSatSpec ⟨i64Lo, 0, 0⟩ := by
  decide

/-! ## Hex color parsing (FromStr for Rgb, src/src/imagery.rs)

Rust strings are modelled at the byte level: a str is a list of bytes, and
byte slicing checks char boundaries exactly as Rust does, with None standing
for the char-boundary panic. -/

/-- A UTF-8 continuation byte (second or later byte of a multi-byte char). -/
def contByte (b : ℕ) : Bool := decide (128 ≤ b ∧ b < 192)

/-- Rust str::is_char_boundary: index 0 and the end are always boundaries;
otherwise the byte there must not be a continuation byte. -/
def isCharBoundary (s : List ℕ) (i : ℕ) : Bool :=
  if i = 0 then true
  else if i = s.length then true
  else match s.get? i with
       | some b => !(contByte b)
       | none => false

/-- Rust byte slicing s[a..b]: some slice when the range is valid and both
ends are char boundaries; none models the slicing panic. -/
def sliceBytes (s : List ℕ) (a b : ℕ) : Option (List ℕ) :=
  if a ≤ b ∧ isCharBoundary s a = true ∧ isCharBoundary s b = true then
    some ((s.drop a).take (b - a))
  else none

/-- Value of an ASCII hex digit. -/
def hexDigit (b : ℕ) : Option ℕ :=
  if 48 ≤ b ∧ b ≤ 57 then some (b - 48)
  else if 97 ≤ b ∧ b ≤ 102 then some (b - 87)
  else if 65 ≤ b ∧ b ≤ 70 then some (b - 55)
  else none

/-- Models u8::from_str_radix(src, 16) from the Rust core library (external
to this repository), per its documented semantics: an optional leading plus
sign (minus is not accepted for unsigned types), then one or more hex digits,
with overflow above u8::MAX rejected. -/
def parseU8Radix16 (s : List ℕ) : Option ℕ :=
  match s with
  | [] => none
  | b :: rest =>
      let digits := if b = 43 then rest else s
      if digits.isEmpty then none
      else digits.foldl
        (fun acc d => acc.bind (fun v => (hexDigit d).bind (fun dv =>
          if 16 * v + dv ≤ 255 then some (16 * v + dv) else none)))
        (some 0)

/-- FromStr for Rgb: the source checks string.len() == 7 and string[0..1]
being the hash mark, then parses string[1..3], string[3..5], string[5..7]
with valid_hex.  The outer Option models panics (byte slicing off a char
boundary); the inner Option models the Ok/Err result. -/
def fromStrRgb (s : List ℕ) : Option (Option Rgb) :=
  if s.length = 7 then
    match sliceBytes s 0 1 with
    | none => none
    | some first =>
      if first = [35] then
        match sliceBytes s 1 3 with
        | none => none
        | some g1 =>
          match parseU8Radix16 g1 with
          | none => some none
          | some rv =>
            match sliceBytes s 3 5 with
            | none => none
            | some g2 =>
              match parseU8Radix16 g2 with
              | none => some none
              | some gv =>
                match sliceBytes s 5 7 with
                | none => none
                | some g3 =>
                  match parseU8Radix16 g3 with
                  | none => some none
                  | some bv => some (some ⟨(rv : ℤ), (gv : ℤ), (bv : ℤ)⟩)
      else some none
  else some none

theorem hexDigit_lt {z v : ℕ} (h : hexDigit z = some v) : z < 128 := by
  unfold hexDigit at h
  split at h
  · omega
  · split at h
    · omega
    · split at h
      · omega
      · exact absurd h (by simp)

theorem parse_two_lt {x y v : ℕ} (h : parseU8Radix16 [x, y] = some v) :
    x < 128 ∧ y < 128 := by
  unfold parseU8Radix16 at h
  by_cases hx : x = 43
  · subst hx
    simp only [if_pos rfl] at h
    simp only [List.isEmpty, List.foldl] at h
    cases hy : hexDigit y with
    | none => simp [hy] at h
    | some dv => exact ⟨by omega, hexDigit_lt hy⟩
  · simp only [if_neg hx] at h
    simp only [List.isEmpty, List.foldl] at h
    cases hhx : hexDigit x with
    | none => simp [hhx] at h
    | some dx =>
        cases hhy : hexDigit y with
        | none => simp [hhx, hhy] at h
        | some dy => exact ⟨hexDigit_lt hhx, hexDigit_lt hhy⟩

theorem slice7_01 (b0 b1 b2 b3 b4 b5 b6 : ℕ) :
    sliceBytes [b0, b1, b2, b3, b4, b5, b6] 0 1
      = if contByte b1 then none else some [b0] := by
  cases hc : contByte b1 <;>
    simp [sliceBytes, isCharBoundary, hc, List.get?]

theorem slice7_13 (b0 b1 b2 b3 b4 b5 b6 : ℕ) :
    sliceBytes [b0, b1, b2, b3, b4, b5, b6] 1 3
      = if contByte b1 || contByte b3 then none else some [b1, b2] := by
  cases hc1 : contByte b1 <;> cases hc3 : contByte b3 <;>
    simp [sliceBytes, isCharBoundary, hc1, hc3, List.get?]

theorem slice7_35 (b0 b1 b2 b3 b4 b5 b6 : ℕ) :
    sliceBytes [b0, b1, b2, b3, b4, b5, b6] 3 5
      = if contByte b3 || contByte b5 then none else some [b3, b4] := by
  cases hc3 : contByte b3 <;> cases hc5 : contByte b5 <;>
    simp [sliceBytes, isCharBoundary, hc3, hc5, List.get?]

theorem slice7_57 (b0 b1 b2 b3 b4 b5 b6 : ℕ) :
    sliceBytes [b0, b1, b2, b3, b4, b5, b6] 5 7
      = if contByte b5 then none else some [b5, b6] := by
  cases hc5 : contByte b5 <;>
    simp [sliceBytes, isCharBoundary, hc5, List.get?]

theorem fromStr7_eval (b0 b1 b2 b3 b4 b5 b6 : ℕ) :
    fromStrRgb [b0, b1, b2, b3, b4, b5, b6] =
      if contByte b1 then none
      else if b0 = 35 then
        if contByte b3 then none
        else match parseU8Radix16 [b1, b2] with
          | none => some none
          | some rv =>
            if contByte b5 then none
            else match parseU8Radix16 [b3, b4] with
              | none => some none
              | some gv =>
                match parseU8Radix16 [b5, b6] with
                | none => some none
                | some bv => some (some ⟨(rv : ℤ), (gv : ℤ), (bv : ℤ)⟩)
      else some none := by
  unfold fromStrRgb
  rw [if_pos (show ([b0, b1, b2, b3, b4, b5, b6] : List ℕ).length = 7 from rfl)]
  rw [slice7_01, slice7_13, slice7_35, slice7_57]
  cases hc1 : contByte b1 <;> cases hc3 : contByte b3 <;> cases hc5 : contByte b5 <;>
    by_cases h0 : b0 = 35 <;> simp [h0]

theorem contByte_false {z : ℕ} (h : z < 128) : contByte z = false := by
  simp [contByte]
  omega

theorem exists_seven {s : List ℕ} (h : s.length = 7) :
    ∃ a b c d e f g, s = [a, b, c, d, e, f, g] := by
  rcases s with _ | ⟨a, s⟩; · simp at h
  rcases s with _ | ⟨b, s⟩; · simp at h
  rcases s with _ | ⟨c, s⟩; · simp at h
  rcases s with _ | ⟨d, s⟩; · simp at h
  rcases s with _ | ⟨e, s⟩; · simp at h
  rcases s with _ | ⟨f, s⟩; · simp at h
  rcases s with _ | ⟨g, s⟩; · simp at h
  rcases s with _ | ⟨x, s⟩
  · exact ⟨a, b, c, d, e, f, g, rfl⟩
  · simp at h

theorem fromStr_len_ne {s : List ℕ} (h : s.length ≠ 7) : fromStrRgb s = some none := by
  unfold fromStrRgb
  rw [if_neg h]

theorem fromStr_ok_iff_aux (b0 b1 b2 b3 b4 b5 b6 rv gv bv : ℕ) :
    fromStrRgb [b0, b1, b2, b3, b4, b5, b6] = some (some ⟨(rv : ℤ), (gv : ℤ), (bv : ℤ)⟩)
      ↔ b0 = 35 ∧ parseU8Radix16 [b1, b2] = some rv ∧
          parseU8Radix16 [b3, b4] = some gv ∧ parseU8Radix16 [b5, b6] = some bv := by
  constructor
  · intro h
    rw [fromStr7_eval] at h
    split at h
    · exact absurd h (by simp)
    · split at h
      · next h0 =>
        split at h
        · exact absurd h (by simp)
        · split at h
          · exact absurd h (by simp)
          · next rv0 hp1 =>
            split at h
            · exact absurd h (by simp)
            · split at h
              · exact absurd h (by simp)
              · next gv0 hp2 =>
                split at h
                · exact absurd h (by simp)
                · next bv0 hp3 =>
                  have h2 : ((rv0 : ℤ) = rv) ∧ ((gv0 : ℤ) = gv) ∧ ((bv0 : ℤ) = bv) := by
                    simpa [Rgb.mk.injEq] using h
                  have e1 : rv0 = rv := by exact_mod_cast h2.1
                  have e2 : gv0 = gv := by exact_mod_cast h2.2.1
                  have e3 : bv0 = bv := by exact_mod_cast h2.2.2
                  exact ⟨h0, e1 ▸ hp1, e2 ▸ hp2, e3 ▸ hp3⟩
      · exact absurd h (by simp)
  · rintro ⟨h0, hp1, hp2, hp3⟩
    have l1 := parse_two_lt hp1
    have l2 := parse_two_lt hp2
    have l3 := parse_two_lt hp3
    have c1 : contByte b1 = false := contByte_false l1.1
    have c3 : contByte b3 = false := contByte_false l2.1
    have c5 : contByte b5 = false := contByte_false l3.1
    simp [fromStr7_eval, c1, c3, c5, h0, hp1, hp2, hp3]

theorem fromStr_none_iff_aux (b0 b1 b2 b3 b4 b5 b6 : ℕ) :
    fromStrRgb [b0, b1, b2, b3, b4, b5, b6] = none
      ↔ (contByte b1 = true ∨ (b0 = 35 ∧ contByte b1 = false ∧
           (contByte b3 = true ∨ ((parseU8Radix16 [b1, b2]).isSome
              ∧ contByte b3 = false ∧ contByte b5 = true)))) := by
  constructor
  · intro h
    rw [fromStr7_eval] at h
    split at h
    · next hc1 => exact Or.inl hc1
    · next hc1 =>
      split at h
      · next h0 =>
        split at h
        · next hc3 => exact Or.inr ⟨h0, by simpa using hc1, Or.inl hc3⟩
        · next hc3 =>
          split at h
          · simp at h
          · next rv0 hp1 =>
            split at h
            · next hc5 =>
                exact Or.inr ⟨h0, by simpa using hc1,
                  Or.inr ⟨by simp [hp1], by simpa using hc3, hc5⟩⟩
            · next hc5 =>
              split at h
              · simp at h
              · next gv0 hp2 =>
                split at h <;> simp at h
      · next h0 => simp at h
  · intro h
    rcases h with hc1 | ⟨h0, hc1, hrest⟩
    · simp [fromStr7_eval, hc1]
    · rcases hrest with hc3 | ⟨hps, hc3, hc5⟩
      · simp [fromStr7_eval, h0, hc1, hc3]
      · obtain ⟨rv0, hp⟩ := Option.isSome_iff_exists.mp hps
        simp [fromStr7_eval, h0, hc1, hc3, hc5, hp]

/-- C9 (amended): Rgb::from_str succeeds exactly on seven-byte strings that
start with the hash mark and whose three two-byte groups parse under
u8::from_str_radix base 16, which accepts not only two hexits but also a
plus sign followed by one hexit; every other input yields an error, except
that a seven-byte string whose byte offsets 1, 3 or 5 fall inside a
multi-byte UTF-8 character makes the byte-slicing panic (modelled as none);
pure-ASCII inputs never panic.  The final conjunct exhibits a concrete valid
UTF-8 input (hash mark followed by a euro sign) on which the source panics. -/
theorem fromStr_hex_characterization :
    (∀ s : List ℕ, s.length ≠ 7 → fromStrRgb s = some none) ∧
    (∀ b0 b1 b2 b3 b4 b5 b6 rv gv bv : ℕ,
      fromStrRgb [b0, b1, b2, b3, b4, b5, b6] = some (some ⟨(rv : ℤ), (gv : ℤ), (bv : ℤ)⟩)
        ↔ b0 = 35 ∧ parseU8Radix16 [b1, b2] = some rv ∧
            parseU8Radix16 [b3, b4] = some gv ∧ parseU8Radix16 [b5, b6] = some bv) ∧
    (∀ b0 b1 b2 b3 b4 b5 b6 : ℕ,
      fromStrRgb [b0, b1, b2, b3, b4, b5, b6] = none
        ↔ (contByte b1 = true ∨ (b0 = 35 ∧ contByte b1 = false ∧
             (contByte b3 = true ∨ ((parseU8Radix16 [b1, b2]).isSome
                ∧ contByte b3 = false ∧ contByte b5 = true))))) ∧
    (∀ s : List ℕ, (∀ b ∈ s, b < 128) → fromStrRgb s ≠ none) ∧
    fromStrRgb [35, 226, 130, 172, 50, 51, 52] = none := by
  refine ⟨fun s h => fromStr_len_ne h, fromStr_ok_iff_aux, fromStr_none_iff_aux, ?_, by decide⟩
  intro s hascii h
  by_cases hl : s.length = 7
  · obtain ⟨a, b, c, d, e, f, g, rfl⟩ := exists_seven hl
    have hb : b < 128 := hascii b (by simp)
    have hd : d < 128 := hascii d (by simp)
    have hf : f < 128 := hascii f (by simp)
    have := (fromStr_none_iff_aux a b c d e f g).mp h
    rcases this with hc1 | ⟨_, _, hrest⟩
    · rw [contByte_false hb] at hc1; cases hc1
    · rcases hrest with hc3 | ⟨_, _, hc5⟩
      · rw [contByte_false hd] at hc3; cases hc3
      · rw [contByte_false hf] at hc5; cases hc5
  · rw [fromStr_len_ne hl] at h; cases h

/-- Witness for C9: the characterization applied at concrete inputs. -/
theorem fromStr_hex_characterization_witness :
    fromStrRgb [49, 50, 51] = some none ∧
    fromStrRgb [35, 48, 49, 50, 51, 52, 53] = some (some ⟨1, 35, 69⟩) := by
  have h := fromStr_hex_characterization
  refine ⟨h.1 [49, 50, 51] (by decide), ?_⟩
  exact (h.2.1 35 48 49 50 51 52 53 1 35 69).mpr (by decide)

/-- Counterexample to C9 as stated: the seven-byte string made of a hash
mark then the bytes of plus-one-two-three-four-five is accepted (the plus
sign is not a hexit, yet u8::from_str_radix accepts it), contradicting the
claim that exactly six hexits are accepted. -/
theorem fromStr_accepts_plus :
    fromStrRgb [35, 43, 49, 50, 51, 52, 53] = some (some ⟨1, 35, 69⟩) ∧
    hexDigit 43 = none := by
  decide

/-! ## Automatic palette selection (src/src/auto_color.rs)

The image decoding and contrast boost are external; the model takes the
resulting histogram (the contents of rank_colors' hash map, in iteration
order) as input. -/

/-- The comparison used by sort_unstable_by_key on the histogram count. -/
def countRel (x y : Rgb × ℕ) : Prop := x.2 ≤ y.2

instance : DecidableRel countRel :=
  fun x y => inferInstanceAs (Decidable (x.2 ≤ y.2))

instance : IsTotal (Rgb × ℕ) countRel := ⟨fun x y => Nat.le_total x.2 y.2⟩

instance : IsTrans (Rgb × ℕ) countRel := ⟨fun _ _ _ hab hbc => Nat.le_trans hab hbc⟩

/-- Sort histogram entries by count ascending, then reverse: descending.
Rust's sort_unstable_by_key leaves the order of equal keys unspecified, so
any correct sorting algorithm models it. -/
def sortByCountDesc (hist : List (Rgb × ℕ)) : List (Rgb × ℕ) :=
  (hist.insertionSort countRel).reverse

/-- fn calc_fgs: sorted histogram colors, minus the manual foregrounds and
the background, first limit of them, then the manual foregrounds appended. -/
def calc_fgs (hist : List (Rgb × ℕ)) (manualFgs : List Rgb) (bg : Rgb) (limit : ℕ) :
    List Rgb :=
  ((((sortByCountDesc hist).map Prod.fst).filter
      (fun c => !(manualFgs.contains c))).filter (fun c => !(c == bg))).take limit
    ++ manualFgs

/-- fn calc_bg: the histogram color with the highest count, ignoring manual
foregrounds; none models the unwrap panic on an empty candidate set.
Rust's max_by_key keeps the later element on ties. -/
def calc_bg (hist : List (Rgb × ℕ)) (manualFgs : List Rgb) : Option Rgb :=
  ((hist.filter (fun e => !(manualFgs.contains e.1))).foldl
    (fun acc e =>
      match acc with
      | none => some e
      | some m => if m.2 ≤ e.2 then some e else some m) none).map Prod.fst

/-- The AutoColor configuration (cli_app.rs Style::AutoColor). -/
structure AutoColorCfg where
  autoFgCount : ℕ
  manualForegrounds : List Rgb
  manualBackground : Option Rgb

/-- fn fg_and_bg: background from the manual override or calc_bg, then
foregrounds from calc_fgs. -/
def fg_and_bg (ac : AutoColorCfg) (hist : List (Rgb × ℕ)) :
    Option (List Rgb × Rgb) :=
  (match ac.manualBackground with
   | some b => some b
   | none => calc_bg hist ac.manualForegrounds).map
    (fun bg => (calc_fgs hist ac.manualForegrounds bg ac.autoFgCount, bg))

/-- The count recorded in the histogram for a color (0 if absent). -/
def countOf (hist : List (Rgb × ℕ)) (c : Rgb) : ℕ :=
  ((hist.find? (fun e => e.1 == c)).map Prod.snd).getD 0

theorem countOf_eq {hist : List (Rgb × ℕ)} (hnd : (hist.map Prod.fst).Nodup)
    {e : Rgb × ℕ} (he : e ∈ hist) : countOf hist e.1 = e.2 := by
  induction hist with
  | nil => simp at he
  | cons h0 t ih =>
      rw [List.map_cons, List.nodup_cons] at hnd
      rcases List.mem_cons.mp he with rfl | het
      · unfold countOf
        simp [List.find?]
      · by_cases hk : h0.1 = e.1
        · exact absurd (hk ▸ List.mem_map_of_mem Prod.fst het) hnd.1
        · unfold countOf
          rw [List.find?]
          have : (h0.1 == e.1) = false := by
            simp [hk]
          rw [this]
          exact ih hnd.2 het

theorem sortByCountDesc_pairwise (hist : List (Rgb × ℕ)) :
    (sortByCountDesc hist).Pairwise (fun a b => b.2 ≤ a.2) := by
  unfold sortByCountDesc
  rw [List.pairwise_reverse]
  have h := List.sorted_insertionSort countRel hist
  refine h.imp ?_
  intro a b hab
  exact hab

theorem sortByCountDesc_perm (hist : List (Rgb × ℕ)) :
    (sortByCountDesc hist).Perm hist := by
  unfold sortByCountDesc
  exact (List.reverse_perm _).trans (List.perm_insertionSort countRel hist)

/-- C5 (amended): calc_fgs returns the auto-picked prefix followed by the
manual foregrounds: the total length is at most limit plus the number of
manual foregrounds, the auto prefix is in non-increasing histogram-count
order, and no auto-picked color equals the background or a manual
foreground.  The appended manual foregrounds, however, are not filtered
against the background, so a manually given foreground may equal a manually
given background. -/
theorem calc_fgs_spec (hist : List (Rgb × ℕ)) (manualFgs : List Rgb) (bg : Rgb)
    (limit : ℕ) (hnd : (hist.map Prod.fst).Nodup) :
    ∃ autoL,
      calc_fgs hist manualFgs bg limit = autoL ++ manualFgs ∧
      autoL.length ≤ limit ∧
      (calc_fgs hist manualFgs bg limit).length ≤ limit + manualFgs.length ∧
      autoL.Pairwise (fun a b => countOf hist b ≤ countOf hist a) ∧
      (∀ c ∈ autoL, c ≠ bg ∧ c ∉ manualFgs ∧ c ∈ hist.map Prod.fst) := by
  refine ⟨((((sortByCountDesc hist).map Prod.fst).filter
      (fun c => !(manualFgs.contains c))).filter (fun c => !(c == bg))).take limit,
    rfl, ?_, ?_, ?_, ?_⟩
  · exact List.length_take_le _ _
  · rw [calc_fgs, List.length_append]
    have h := List.length_take_le limit ((((sortByCountDesc hist).map Prod.fst).filter
        (fun c => !(manualFgs.contains c))).filter (fun c => !(c == bg)))
    omega
  · have hp0 : ((sortByCountDesc hist).map Prod.fst).Pairwise
        (fun a b => countOf hist b ≤ countOf hist a) := by
      rw [List.pairwise_map]
      refine (sortByCountDesc_pairwise hist).imp_of_mem ?_
      intro a b ha hb hab
      have ha' : a ∈ hist := (sortByCountDesc_perm hist).subset ha
      have hb' : b ∈ hist := (sortByCountDesc_perm hist).subset hb
      rw [countOf_eq hnd ha', countOf_eq hnd hb']
      exact hab
    have hs : (((((sortByCountDesc hist).map Prod.fst).filter
        (fun c => !(manualFgs.contains c))).filter (fun c => !(c == bg))).take limit).Sublist
          ((sortByCountDesc hist).map Prod.fst) :=
      ((List.take_sublist _ _).trans (List.filter_sublist _)).trans (List.filter_sublist _)
    exact List.Pairwise.sublist hs hp0
  · intro c hc
    have hc1 := List.mem_of_mem_take hc
    have hc2 := List.mem_of_mem_filter hc1
    have hcbg : c ≠ bg := by
      have := List.of_mem_filter hc1
      simpa using this
    have hcm : c ∉ manualFgs := by
      have h2 := List.of_mem_filter hc2
      simpa using h2
    have hc3 : c ∈ (sortByCountDesc hist).map Prod.fst := List.mem_of_mem_filter hc2
    refine ⟨hcbg, hcm, ?_⟩
    obtain ⟨e, he, rfl⟩ := List.mem_map.mp hc3
    exact List.mem_map_of_mem Prod.fst ((sortByCountDesc_perm hist).subset he)

/-- C5 (amended): whenever fg_and_bg returns foregrounds and a background,
the foregrounds are an auto-picked prefix followed by the manual foregrounds
in iteration order; the list is no longer than auto_fg_count plus the number
of manual foregrounds; the auto prefix is in non-increasing histogram-count
order and avoids both the background and the manual foregrounds.  A manual
foreground, however, can equal the chosen background (when the same color is
passed as manual background and manual foreground), so the original claim's
final conjunct fails for the manual tail. -/
theorem fg_and_bg_spec (ac : AutoColorCfg) (hist : List (Rgb × ℕ))
    (hnd : (hist.map Prod.fst).Nodup) (fgs : List Rgb) (bg : Rgb)
    (h : fg_and_bg ac hist = some (fgs, bg)) :
    ∃ autoL,
      fgs = autoL ++ ac.manualForegrounds ∧
      fgs.length ≤ ac.autoFgCount + ac.manualForegrounds.length ∧
      autoL.Pairwise (fun a b => countOf hist b ≤ countOf hist a) ∧
      (∀ c ∈ autoL, c ≠ bg ∧ c ∉ ac.manualForegrounds ∧ c ∈ hist.map Prod.fst) := by
  have hfgs : fgs = calc_fgs hist ac.manualForegrounds bg ac.autoFgCount := by
    unfold fg_and_bg at h
    cases hb : (match ac.manualBackground with
      | some b => some b
      | none => calc_bg hist ac.manualForegrounds) with
    | none => rw [hb] at h; exact absurd h (by simp)
    | some b0 =>
        rw [hb] at h
        have h' : some (calc_fgs hist ac.manualForegrounds b0 ac.autoFgCount, b0)
            = some (fgs, bg) := h
        have := Option.some.inj h'
        have h1 : calc_fgs hist ac.manualForegrounds b0 ac.autoFgCount = fgs :=
          congrArg Prod.fst this
        have h2 : b0 = bg := congrArg Prod.snd this
        rw [← h1, h2]
  obtain ⟨autoL, heq, hlen, hlen2, hpw, hmem⟩ :=
    calc_fgs_spec hist ac.manualForegrounds bg ac.autoFgCount hnd
  exact ⟨autoL, by rw [hfgs, heq], by rw [hfgs]; exact hlen2, hpw, hmem⟩

/-- Witness for C5 at a concrete configuration and histogram. -/
theorem fg_and_bg_spec_witness :
    ∃ autoL,
      [⟨9, 9, 9⟩, ⟨1, 1, 1⟩] = autoL ++ [(⟨1, 1, 1⟩ : Rgb)] ∧
      ([⟨9, 9, 9⟩, ⟨1, 1, 1⟩] : List Rgb).length ≤ 1 + 1 ∧
      autoL.Pairwise (fun a b =>
        countOf [(⟨9, 9, 9⟩, 5), (⟨0, 0, 0⟩, 7)] b
          ≤ countOf [(⟨9, 9, 9⟩, 5), (⟨0, 0, 0⟩, 7)] a) ∧
      (∀ c ∈ autoL, c ≠ ⟨0, 0, 0⟩ ∧ c ∉ [(⟨1, 1, 1⟩ : Rgb)] ∧
        c ∈ ([(⟨9, 9, 9⟩, 5), (⟨0, 0, 0⟩, 7)] : List (Rgb × ℕ)).map Prod.fst) :=
  fg_and_bg_spec ⟨1, [⟨1, 1, 1⟩], none⟩ [(⟨9, 9, 9⟩, 5), (⟨0, 0, 0⟩, 7)]
    (by decide) [⟨9, 9, 9⟩, ⟨1, 1, 1⟩] ⟨0, 0, 0⟩ (by decide)

/-- Counterexample to C5 as stated: with white given both as the manual
background and as a manual foreground, fg_and_bg returns white among the
foregrounds while the chosen background is white, so a returned foreground
equals the background. -/
theorem fg_and_bg_counterexample :
    fg_and_bg ⟨0, [⟨255, 255, 255⟩], some ⟨255, 255, 255⟩⟩ [(⟨0, 0, 0⟩, 4)]
      = some ([⟨255, 255, 255⟩], ⟨255, 255, 255⟩) := by
  decide

/-! ## Line geometry and rasterization (src/src/geometry.rs and the PixLine
constructor of src/src/imagery.rs)

f64 arithmetic is idealized as exact rational arithmetic.  The square root
inside Vector::len has no rational counterpart, so the line's length is an
explicit argument, constrained in the theorems by len being non-negative
with len * len equal to the squared distance of the endpoints. -/

/-- A float 2D vector (struct Vector), idealized over the rationals. -/
abbrev Vec2 := ℚ × ℚ

/-- Rust f64::round: round half away from zero. -/
def roundQ (q : ℚ) : ℤ := if 0 ≤ q then ⌊q + 1 / 2⌋ else -⌊-q + 1 / 2⌋

/-- Rust `as u32` cast of a float: saturates into the u32 range. -/
def castU32 (z : ℤ) : ℕ := (max 0 (min (2 ^ 32 - 1) z)).toNat

/-- From Vector for Point: round each coordinate, cast to u32. -/
def roundPt (v : Vec2) : Pt := (castU32 (roundQ v.1), castU32 (roundQ v.2))

/-- Point coordinates as a float vector (From Point for Vector). -/
def ptToVec (p : Pt) : Vec2 := ((p.1 : ℚ), (p.2 : ℚ))

/-- Squared length of the vector from u to v (what Vector::len takes the
square root of). -/
def dist2 (u v : Vec2) : ℚ :=
  (v.1 - u.1) * (v.1 - u.1) + (v.2 - u.2) * (v.2 - u.2)

/-- Line::iter and LineIter::next: starting at A, step by the unit basis of
B - A times step_size, yielding while the remaining distance (initialized to
len and decremented by step_size each yield) is non-negative.  The sample at
index k is A + k * (s * (B - A) / len). -/
def lineSamples (A B : Vec2) (len s : ℚ) : List Vec2 :=
  if 0 ≤ len ∧ 0 < s then
    (List.range ((⌊len / s⌋).toNat + 1)).map
      (fun (k : ℕ) => (A.1 + (k : ℚ) * (s * (B.1 - A.1) / len),
        A.2 + (k : ℚ) * (s * (B.2 - A.2) / len)))
  else []

/-- The sampled points of a pixel-line, quantized to pixels. -/
def pixPoints (A B : Vec2) (len s : ℚ) : List Pt :=
  (lineSamples A B len s).map roundPt

/-- f64-to-i64 cast after f64::round: saturating at the i64 bounds. -/
def roundToI64 (q : ℚ) : ℤ := clampI64 (roundQ q)

/-- The color recorded for a pixel visited m times: the coloring value
rgb * step_size * string_alpha accumulated m times in the float domain,
then rounded back to integer RGB. -/
def pixLineVal (c : Rgb) (s a : ℚ) (m : ℕ) : Rgb :=
  ⟨roundToI64 (c.r * s * a * m), roundToI64 (c.g * s * a * m), roundToI64 (c.b * s * a * m)⟩

/-- The PixLine built from ((A, B), c, s, a) as a map from points to
optional colors (the contents of its hash map). -/
def pixLineFun (A B : Pt) (c : Rgb) (s a len : ℚ) : Pt → Option Rgb :=
  fun p =>
    let pts := pixPoints (ptToVec A) (ptToVec B) len s
    if pts.count p = 0 then none else some (pixLineVal c s a (pts.count p))

theorem map_range_reverse {α : Type} (f : ℕ → α) :
    ∀ n : ℕ, (List.range (n + 1)).map (fun k => f (n - k))
      = ((List.range (n + 1)).map f).reverse := by
  intro n
  induction n with
  | zero => rfl
  | succ n ih =>
      have hr : List.range (n + 2) = List.range (n + 1) ++ [n + 1] := by
        simpa using List.range_succ (n + 1)
      have hl : List.range (n + 2) = 0 :: (List.range (n + 1)).map (· + 1) :=
        List.range_succ_eq_map (n + 1)
      calc (List.range (n + 2)).map (fun k => f (n + 1 - k))
          = f (n + 1) :: ((List.range (n + 1)).map (· + 1)).map (fun k => f (n + 1 - k)) := by
            rw [hl]; simp
        _ = f (n + 1) :: (List.range (n + 1)).map (fun k => f (n - k)) := by
            rw [List.map_map]
            refine congrArg _ (List.map_congr_left ?_)
            intro k _
            show f (n + 1 - (k + 1)) = f (n - k)
            congr 1
            omega
        _ = f (n + 1) :: ((List.range (n + 1)).map f).reverse := by rw [ih]
        _ = ((List.range (n + 2)).map f).reverse := by
            rw [hr]; simp

theorem lineSamples_reverse (A B : Vec2) (s len : ℚ) (hs : 0 < s) (n : ℕ)
    (hlen : len = n * s) (hz : len = 0 → A = B) :
    lineSamples B A len s = (lineSamples A B len s).reverse := by
  have hlen0 : 0 ≤ len := by
    rw [hlen]
    positivity
  have hsne : s ≠ 0 := ne_of_gt hs
  have hfloor : (⌊len / s⌋).toNat = n := by
    rw [hlen, mul_div_assoc, div_self hsne, mul_one]
    simp
  unfold lineSamples
  rw [if_pos ⟨hlen0, hs⟩, if_pos ⟨hlen0, hs⟩, hfloor]
  by_cases h0 : len = 0
  · have hab := hz h0
    have hn0 : n = 0 := by
      rcases Nat.eq_zero_or_pos n with h | h
      · exact h
      · exfalso
        have : (0 : ℚ) < n * s := by
          have : (0 : ℚ) < (n : ℚ) := by exact_mod_cast h
          positivity
        rw [← hlen, h0] at this
        exact lt_irrefl 0 this
    subst hab hn0
    simp
  · rw [← map_range_reverse (fun (k : ℕ) =>
      (A.1 + (k : ℚ) * (s * (B.1 - A.1) / len),
        A.2 + (k : ℚ) * (s * (B.2 - A.2) / len))) n]
    apply List.map_congr_left
    intro k hk
    have hkn : k ≤ n := by
      have := List.mem_range.mp hk
      omega
    have hcast : ((n - k : ℕ) : ℚ) = (n : ℚ) - (k : ℚ) := Nat.cast_sub hkn
    have hns : (n : ℚ) * s = len := hlen.symm
    have hx : B.1 + (k : ℚ) * (s * (A.1 - B.1) / len)
        = A.1 + ((n - k : ℕ) : ℚ) * (s * (B.1 - A.1) / len) := by
      rw [hcast]
      field_simp
      rw [← hns]
      ring
    have hy : B.2 + (k : ℚ) * (s * (A.2 - B.2) / len)
        = A.2 + ((n - k : ℕ) : ℚ) * (s * (B.2 - A.2) / len) := by
      rw [hcast]
      field_simp
      rw [← hns]
      ring
    rw [Prod.ext_iff]
    exact ⟨hx, hy⟩

/-- C6 (amended): the pixel-line of a line is endpoint-symmetric whenever
the line's length is an integer multiple of the step size (in particular for
coincident endpoints).  In general the two directions sample different
points and the maps differ, as the counterexample shows. -/
theorem pixline_pair_symmetric (A B : Pt) (c : Rgb) (s a len : ℚ)
    (hs : 0 < s) (_ha0 : 0 < a) (_ha1 : a ≤ 1) (n : ℕ) (hlen : len = n * s)
    (hd : len * len = dist2 (ptToVec A) (ptToVec B)) :
    pixLineFun A B c s a len = pixLineFun B A c s a len := by
  have hz : len = 0 → ptToVec A = ptToVec B := by
    intro h0
    rw [h0] at hd
    unfold dist2 at hd
    have hd0 : 0 = ((ptToVec B).1 - (ptToVec A).1) * ((ptToVec B).1 - (ptToVec A).1)
        + ((ptToVec B).2 - (ptToVec A).2) * ((ptToVec B).2 - (ptToVec A).2) := by
      rw [← hd]; ring
    have h1 : ((ptToVec B).1 - (ptToVec A).1) * ((ptToVec B).1 - (ptToVec A).1) = 0 := by
      nlinarith [mul_self_nonneg ((ptToVec B).1 - (ptToVec A).1),
        mul_self_nonneg ((ptToVec B).2 - (ptToVec A).2)]
    have h2 : ((ptToVec B).2 - (ptToVec A).2) * ((ptToVec B).2 - (ptToVec A).2) = 0 := by
      nlinarith [mul_self_nonneg ((ptToVec B).1 - (ptToVec A).1),
        mul_self_nonneg ((ptToVec B).2 - (ptToVec A).2)]
    have e1 : (ptToVec A).1 = (ptToVec B).1 := by
      have := mul_self_eq_zero.mp h1
      linarith
    have e2 : (ptToVec A).2 = (ptToVec B).2 := by
      have := mul_self_eq_zero.mp h2
      linarith
    exact Prod.ext e1 e2
  have hrev := lineSamples_reverse (ptToVec A) (ptToVec B) s len hs n hlen hz
  funext p
  unfold pixLineFun pixPoints
  rw [show lineSamples (ptToVec B) (ptToVec A) len s
      = (lineSamples (ptToVec A) (ptToVec B) len s).reverse from hrev]
  simp only [List.map_reverse, List.count_reverse]

/-- Witness for C6: a vertical line of length 4 sampled with step 2 gives
the same pixel-line in both directions. -/
theorem pixline_pair_symmetric_witness :
    pixLineFun (0, 0) (0, 4) ⟨255, 255, 255⟩ 2 1 4
      = pixLineFun (0, 4) (0, 0) ⟨255, 255, 255⟩ 2 1 4 :=
  pixline_pair_symmetric (0, 0) (0, 4) ⟨255, 255, 255⟩ 2 1 4
    (by norm_num) (by norm_num) (by norm_num) 2 (by norm_num)
    (by with_unfolding_all rfl)

/-- Counterexample to C6 as stated: for endpoints (0,0) and (0,3) with step
size 2 (all float computations exact, length 3), the forward pixel-line
visits (0,0) and (0,2) while the reverse visits (0,3) and (0,1); the two
maps differ at the point (0,0). -/
theorem pixline_not_symmetric :
    (3 : ℚ) * 3 = dist2 (ptToVec (0, 0)) (ptToVec (0, 3)) ∧
    pixLineFun (0, 0) (0, 3) ⟨255, 255, 255⟩ 2 1 3 (0, 0)
      ≠ pixLineFun (0, 3) (0, 0) ⟨255, 255, 255⟩ 2 1 3 (0, 0) :=
  of_decide_eq_true (by with_unfolding_all rfl)

/-! ## Best/worst candidate search (src/src/optimum.rs, colored variants)

The PixLineCol and RefImageCol types used by these functions come from an
older revision of imagery.rs whose source is not under src/; the pixel-line
is the same rasterizer modelled above, and the colored reference image is
modelled as a function from points to i64 triples.  The line length oracle
lenf stands for the square root inside Vector::len. -/

/-- The colored reference image: pixel to an (i64, i64, i64) triple. -/
abbrev ImgCol := Pt → ℤ × ℤ × ℤ

/-- The entries of a candidate line's pixel-line: each sampled pixel with
its accumulated color. -/
def pixLineColEntries (A B : Pt) (c : Rgb) (s a len : ℚ) : Entries :=
  ((pixPoints (ptToVec A) (ptToVec B) len s).dedup).map
    (fun p => (p, pixLineVal c s a ((pixPoints (ptToVec A) (ptToVec B) len s).count p)))

/-- One side of line_score_col's per-pixel computation:
(255 - n).saturating_pow(2) summed over the three channels in i64. -/
def tripleScore (t : ℤ × ℤ × ℤ) : ℤ :=
  i64add (i64add (i64add 0 (satMul (i64sub 255 t.1) (i64sub 255 t.1)))
      (satMul (i64sub 255 t.2.1) (i64sub 255 t.2.1)))
    (satMul (i64sub 255 t.2.2) (i64sub 255 t.2.2))

/-- fn line_score_col: the change in a RefImageCol's score when adding a
line: per visited pixel, the (255 - channel) squared score of the pixel
after adding the line color minus the score before. -/
def line_score_col (es : Entries) (img : ImgCol) : ℤ :=
  i64sum (es.map (fun e =>
    let a := img e.1
    i64sub (tripleScore (i64add a.1 e.2.r, i64add a.2.1 e.2.g, i64add a.2.2 e.2.b))
      (tripleScore a)))

/-- fn line_removal_score_col: as line_score_col but subtracting the color. -/
def line_removal_score_col (es : Entries) (img : ImgCol) : ℤ :=
  i64sum (es.map (fun e =>
    let a := img e.1
    i64sub (tripleScore (i64sub a.1 e.2.r, i64sub a.2.1 e.2.g, i64sub a.2.2 e.2.b))
      (tripleScore a)))

/-- The pin pairs enumerated by find_best_points_col before filtering:
for each index i, pin i with every pin of index at least i. -/
def pinPairs (pins : List Pt) : List (Pt × Pt) :=
  pins.enum.flatMap (fun ia => (pins.drop ia.1).map (fun b => (ia.2, b)))

/-- The candidate pin pairs: both the x and the y coordinates must differ. -/
def candidatePairs (pins : List Pt) : List (Pt × Pt) :=
  (pinPairs pins).filter (fun ab => decide (ab.1.1 ≠ ab.2.1) && decide (ab.1.2 ≠ ab.2.2))

/-- Ordering by the recorded score (sort_unstable_by_key on the i64 value). -/
def sndLe {α : Type} (x y : α × ℤ) : Prop := x.2 ≤ y.2

instance {α : Type} : DecidableRel (@sndLe α) :=
  fun x y => inferInstanceAs (Decidable (x.2 ≤ y.2))

instance {α : Type} : IsTotal (α × ℤ) sndLe := ⟨fun x y => Int.le_total x.2 y.2⟩

instance {α : Type} : IsTrans (α × ℤ) sndLe := ⟨fun _ _ _ hab hbc => Int.le_trans hab hbc⟩

/-- All scored candidates of find_best_points_col: every candidate pair
combined with every palette color, with its line_score_col. -/
def scoredCandidates (pins : List Pt) (img : ImgCol) (s a : ℚ) (rgbs : List Rgb)
    (lenf : Pt → Pt → ℚ) : List ((Pt × Pt × Rgb) × ℤ) :=
  (candidatePairs pins).flatMap (fun ab => rgbs.map (fun c =>
    ((ab.1, ab.2, c), line_score_col (pixLineColEntries ab.1 ab.2 c s a (lenf ab.1 ab.2)) img)))

/-- fn find_best_points_col: score all candidates, keep the strictly
negative ones, sort ascending by score, take the first k. -/
def find_best_points_col (pins : List Pt) (img : ImgCol) (s a : ℚ) (rgbs : List Rgb)
    (k : ℕ) (lenf : Pt → Pt → ℚ) : List ((Pt × Pt × Rgb) × ℤ) :=
  (((scoredCandidates pins img s a rgbs lenf).filter
    (fun x => decide (x.2 < 0))).insertionSort sndLe).take k

/-- The removal scores of all current segments, by index. -/
def scoredRemovals (pts : List (Pt × Pt × Rgb)) (img : ImgCol) (s a : ℚ)
    (lenf : Pt → Pt → ℚ) : List (ℕ × ℤ) :=
  pts.enum.map (fun ie =>
    (ie.1, line_removal_score_col
      (pixLineColEntries ie.2.1 ie.2.2.1 ie.2.2.2 s a (lenf ie.2.1 ie.2.2.1)) img))

/-- fn find_worst_points_col: score every existing segment's removal, keep
the strictly negative ones, sort ascending by score, take the first k. -/
def find_worst_points_col (pts : List (Pt × Pt × Rgb)) (img : ImgCol) (s a : ℚ)
    (k : ℕ) (lenf : Pt → Pt → ℚ) : List (ℕ × ℤ) :=
  (((scoredRemovals pts img s a lenf).filter
    (fun x => decide (x.2 < 0))).insertionSort sndLe).take k

theorem pairwise_take_drop {α : Type} {R : α → α → Prop} {l : List α}
    (hp : l.Pairwise R) (k : ℕ) :
    ∀ y ∈ l.take k, ∀ z ∈ l.drop k, R y z := by
  have hsplit : l.take k ++ l.drop k = l := List.take_append_drop k l
  rw [← hsplit] at hp
  exact (List.pairwise_append.mp hp).2.2

/-- Shared shape of the two searches: filter negatives, sort by score
ascending, take k. -/
theorem filter_sort_take_spec {α : Type} [DecidableEq α] (base : List (α × ℤ)) (k : ℕ) :
    ((((base.filter (fun x => decide (x.2 < 0))).insertionSort sndLe).take k).length ≤ k) ∧
    ((((base.filter (fun x => decide (x.2 < 0))).insertionSort sndLe).take k).Pairwise
      (fun x y => x.2 ≤ y.2)) ∧
    (∀ x ∈ ((base.filter (fun x => decide (x.2 < 0))).insertionSort sndLe).take k,
      x.2 < 0 ∧ x ∈ base) ∧
    (∀ cnd ∈ base, cnd.2 < 0 →
      cnd ∉ ((base.filter (fun x => decide (x.2 < 0))).insertionSort sndLe).take k →
      (((base.filter (fun x => decide (x.2 < 0))).insertionSort sndLe).take k).length = k ∧
      ∀ y ∈ ((base.filter (fun x => decide (x.2 < 0))).insertionSort sndLe).take k,
        y.2 ≤ cnd.2) := by
  set fl := base.filter (fun x => decide (x.2 < 0)) with hfl
  set srt := fl.insertionSort sndLe with hsrt
  have hperm : srt.Perm fl := List.perm_insertionSort sndLe fl
  have hsorted : srt.Pairwise sndLe := List.sorted_insertionSort sndLe fl
  refine ⟨List.length_take_le _ _, ?_, ?_, ?_⟩
  · exact List.Pairwise.sublist (List.take_sublist _ _) (hsorted.imp (fun h => h))
  · intro x hx
    have hx1 : x ∈ srt := List.mem_of_mem_take hx
    have hx2 : x ∈ fl := hperm.subset hx1
    refine ⟨by simpa using List.of_mem_filter hx2, List.mem_of_mem_filter hx2⟩
  · intro cnd hmem hneg hnot
    have hcf : cnd ∈ fl := by
      rw [hfl]
      exact List.mem_filter.mpr ⟨hmem, by simpa using hneg⟩
    have hcs : cnd ∈ srt := hperm.symm.subset hcf
    have hcd : cnd ∈ srt.drop k := by
      rcases (List.mem_append.mp (by
        rw [List.take_append_drop k srt]
        exact hcs)) with h | h
      · exact absurd h hnot
      · exact h
    have hlen : k < srt.length := by
      by_contra hle
      push_neg at hle
      rw [List.drop_eq_nil_of_le hle] at hcd
      simp at hcd
    constructor
    · rw [List.length_take]
      omega
    · intro y hy
      exact pairwise_take_drop hsorted k y hy cnd hcd

theorem mem_pinPairs (pins : List Pt) (i j : ℕ) (hi : i < pins.length)
    (hj : j < pins.length) (hij : i ≤ j) :
    (pins.get ⟨i, hi⟩, pins.get ⟨j, hj⟩) ∈ pinPairs pins := by
  unfold pinPairs
  rw [List.mem_flatMap]
  refine ⟨(i, pins.get ⟨i, hi⟩), ?_, ?_⟩
  · rw [List.mem_enum_iff_getElem?]
    simp [List.getElem?_eq_getElem hi]
  · rw [List.mem_map]
    refine ⟨pins.get ⟨j, hj⟩, ?_, rfl⟩
    have hlt : j - i < (pins.drop i).length := by
      rw [List.length_drop]
      omega
    have hget : (pins.drop i)[j - i] = pins[j] := by
      rw [List.getElem_drop]
      congr 1
      omega
    rw [List.mem_iff_getElem]
    exact ⟨j - i, hlt, hget⟩

/-- A concrete all-zero colored reference image. -/
def imgColZero : ImgCol := fun _ => (0, 0, 0)

/-- C3 (amended): find_best_points_col evaluates exactly the candidates
formed by each pin pair whose pins differ in BOTH coordinates (every pair
of indices i at most j is visited once, but pairs sharing an x or a y
coordinate are dropped even when the pins are distinct) combined with every
palette color; it keeps only candidates with strictly negative score
change, sorts them ascending by that score, and returns the first k. -/
theorem find_best_points_col_spec (pins : List Pt) (img : ImgCol) (s a : ℚ)
    (rgbs : List Rgb) (k : ℕ) (lenf : Pt → Pt → ℚ) :
    ((find_best_points_col pins img s a rgbs k lenf).length ≤ k) ∧
    ((find_best_points_col pins img s a rgbs k lenf).Pairwise (fun x y => x.2 ≤ y.2)) ∧
    (∀ x ∈ find_best_points_col pins img s a rgbs k lenf,
      x.2 < 0 ∧ x ∈ scoredCandidates pins img s a rgbs lenf) ∧
    (∀ cnd ∈ scoredCandidates pins img s a rgbs lenf, cnd.2 < 0 →
      cnd ∉ find_best_points_col pins img s a rgbs k lenf →
      (find_best_points_col pins img s a rgbs k lenf).length = k ∧
      ∀ y ∈ find_best_points_col pins img s a rgbs k lenf, y.2 ≤ cnd.2) ∧
    (∀ ab ∈ candidatePairs pins, ab.1.1 ≠ ab.2.1 ∧ ab.1.2 ≠ ab.2.2) ∧
    (∀ (i j : ℕ) (hi : i < pins.length) (hj : j < pins.length), i ≤ j →
      (pins.get ⟨i, hi⟩).1 ≠ (pins.get ⟨j, hj⟩).1 →
      (pins.get ⟨i, hi⟩).2 ≠ (pins.get ⟨j, hj⟩).2 →
      (pins.get ⟨i, hi⟩, pins.get ⟨j, hj⟩) ∈ candidatePairs pins) := by
  have h := filter_sort_take_spec (scoredCandidates pins img s a rgbs lenf) k
  refine ⟨h.1, h.2.1, h.2.2.1, h.2.2.2, ?_, ?_⟩
  · intro ab hab
    have h2 := List.of_mem_filter hab
    simpa using h2
  · intro i j hi hj hij hx hy
    unfold candidatePairs
    refine List.mem_filter.mpr ⟨mem_pinPairs pins i j hi hj hij, ?_⟩
    simp only [Bool.and_eq_true, decide_eq_true_eq]
    exact ⟨hx, hy⟩

set_option maxRecDepth 4000 in
/-- Witness for C3 at a concrete pin list and image. -/
theorem find_best_points_col_spec_witness :
    (find_best_points_col [(0, 0), (3, 4)] imgColZero 1 1 [⟨255, 255, 255⟩] 5
      (fun _ _ => 5)).length ≤ 5 ∧
    (((0, 0) : Pt), ((3, 4) : Pt)) ∈ candidatePairs [(0, 0), (3, 4)] := by
  have h := find_best_points_col_spec [(0, 0), (3, 4)] imgColZero 1 1 [⟨255, 255, 255⟩] 5
    (fun _ _ => 5)
  refine ⟨h.1, ?_⟩
  have h2 := h.2.2.2.2.2 0 1 (by norm_num) (by norm_num) (by norm_num)
    (by decide) (by decide)
  simpa using h2

set_option maxRecDepth 100000 in
/-- Counterexample to C3 as stated: the pins (0,0) and (0,5) are distinct,
yet no candidate is formed from them (the filter requires both coordinates
to differ, not just the pins); find_best_points_col returns nothing even
though the candidate the claim prescribes would have strictly negative
score change. -/
theorem find_best_skips_distinct_pins :
    candidatePairs [((0, 0) : Pt), (0, 5)] = [] ∧
    ¬ ((0, 0) : Pt) = (0, 5) ∧
    find_best_points_col [(0, 0), (0, 5)] imgColZero 1 1 [⟨255, 255, 255⟩] 10
      (fun _ _ => 5) = [] ∧
    line_score_col (pixLineColEntries (0, 0) (0, 5) ⟨255, 255, 255⟩ 1 1 5) imgColZero < 0 :=
  of_decide_eq_true (by with_unfolding_all rfl)

/-! ## The remove phase (src/src/style.rs lines 288-309) -/

/-- Ordering by index (sort_unstable_by_key on the returned index). -/
def idxLe (x y : ℕ × ℤ) : Prop := x.1 ≤ y.1

instance : DecidableRel idxLe :=
  fun x y => inferInstanceAs (Decidable (x.1 ≤ y.1))

instance : IsTotal (ℕ × ℤ) idxLe := ⟨fun x y => Nat.le_total x.1 y.1⟩

instance : IsTrans (ℕ × ℤ) idxLe := ⟨fun _ _ _ hab hbc => Nat.le_trans hab hbc⟩

/-- Vec::remove(i): in bounds it returns the removed element and the
shortened list; out of bounds it panics (none). -/
def removeChecked {α : Type} (segs : List α) (i : ℕ) : Option (List α × α) :=
  if h : i < segs.length then some (segs.eraseIdx i, segs.get ⟨i, h⟩) else none

/-- The remove phase's loop: remove the listed indices in order, collecting
the removed elements; none if any removal is out of bounds. -/
def applyRemovals {α : Type} (segs : List α) : List ℕ → Option (List α × List α)
  | [] => some (segs, [])
  | i :: rest =>
      (removeChecked segs i).bind (fun r =>
        (applyRemovals r.1 rest).map (fun pr => (pr.1, r.2 :: pr.2)))

theorem applyRemovals_desc {α : Type} (d : α) :
    ∀ (idxs : List ℕ) (segs : List α), idxs.Pairwise (fun i j => j < i) →
      (∀ i ∈ idxs, i < segs.length) →
      ∃ rem, applyRemovals segs idxs = some (rem, idxs.map (fun i => segs.getD i d)) := by
  intro idxs
  induction idxs with
  | nil => intro segs _ _; exact ⟨segs, rfl⟩
  | cons i rest ih =>
      intro segs hpw hb
      have hi : i < segs.length := hb i (List.mem_cons_self ..)
      have hdesc : ∀ j ∈ rest, j < i := by
        intro j hj
        exact (List.pairwise_cons.mp hpw).1 j hj
      have hlen' : (segs.eraseIdx i).length = segs.length - 1 := by
        rw [List.length_eraseIdx]
        simp [hi]
      have hb' : ∀ j ∈ rest, j < (segs.eraseIdx i).length := by
        intro j hj
        have h1 := hdesc j hj
        omega
      obtain ⟨rem, hrem⟩ := ih (segs.eraseIdx i) (List.pairwise_cons.mp hpw).2 hb'
      refine ⟨rem, ?_⟩
      have hhead : segs.get ⟨i, hi⟩ = segs.getD i d := by
        rw [List.getD_eq_getElem?_getD, List.getElem?_eq_getElem hi]
        rfl
      have htail : rest.map (fun j => (segs.eraseIdx i).getD j d)
          = rest.map (fun j => segs.getD j d) := by
        apply List.map_congr_left
        intro j hj
        have hji := hdesc j hj
        have hjlt : j < (segs.eraseIdx i).length := hb' j hj
        have hjs : j < segs.length := by omega
        rw [List.getD_eq_getElem?_getD, List.getD_eq_getElem?_getD,
          List.getElem?_eq_getElem hjlt, List.getElem?_eq_getElem hjs]
        simp only [Option.getD_some]
        exact List.getElem_eraseIdx_of_lt segs i j hjlt hji
      calc applyRemovals segs (i :: rest)
          = (applyRemovals (segs.eraseIdx i) rest).map
              (fun pr => (pr.1, segs.get ⟨i, hi⟩ :: pr.2)) := by
            show (removeChecked segs i).bind _ = _
            unfold removeChecked
            rw [dif_pos hi]
            rfl
        _ = some (rem, segs.get ⟨i, hi⟩ :: rest.map (fun j => (segs.eraseIdx i).getD j d)) := by
            rw [hrem]
            rfl
        _ = some (rem, (i :: rest).map (fun j => segs.getD j d)) := by
            rw [List.map_cons, hhead, htail]

/-- Placeholder segment for out-of-bounds reads (never used in bounds). -/
def dummySeg : Pt × Pt × Rgb := ((0, 0), (0, 0), ⟨0, 0, 0⟩)

theorem scoredRemovals_map_fst (pts : List (Pt × Pt × Rgb)) (img : ImgCol)
    (s a : ℚ) (lenf : Pt → Pt → ℚ) :
    (scoredRemovals pts img s a lenf).map Prod.fst = List.range pts.length := by
  unfold scoredRemovals
  rw [List.map_map]
  exact List.enum_map_fst pts

/-- C10: find_worst_points_col returns pairwise-distinct indices, each
within the current segment list; therefore the remove phase, which applies
them in descending index order, performs only in-bounds removals and
removes exactly the segments that were scored. -/
theorem find_worst_removals_safe (pts : List (Pt × Pt × Rgb)) (img : ImgCol)
    (s a : ℚ) (k : ℕ) (lenf : Pt → Pt → ℚ) :
    (((find_worst_points_col pts img s a k lenf).map Prod.fst).Nodup ∧
      (∀ iv ∈ find_worst_points_col pts img s a k lenf, iv.1 < pts.length)) ∧
    (∃ rem,
      applyRemovals pts
        (((((find_worst_points_col pts img s a k lenf).insertionSort
          idxLe).reverse).map Prod.fst))
        = some (rem,
          ((((find_worst_points_col pts img s a k lenf).insertionSort
            idxLe).reverse).map Prod.fst).map (fun i => pts.getD i dummySeg))) := by
  set base := scoredRemovals pts img s a lenf with hbase
  have hbasef : base.map Prod.fst = List.range pts.length :=
    scoredRemovals_map_fst pts img s a lenf
  have hbnd : ∀ x ∈ base, x.1 < pts.length := by
    intro x hx
    have hm : x.1 ∈ base.map Prod.fst := List.mem_map_of_mem _ hx
    rw [hbasef] at hm
    exact List.mem_range.mp hm
  set fl := base.filter (fun x => decide (x.2 < 0)) with hfl
  have hout : find_worst_points_col pts img s a k lenf = (fl.insertionSort sndLe).take k := rfl
  have hsortperm : (fl.insertionSort sndLe).Perm fl := List.perm_insertionSort sndLe fl
  have hnodbase : (base.map Prod.fst).Nodup := by
    rw [hbasef]
    exact List.nodup_range pts.length
  have hnodfl : (fl.map Prod.fst).Nodup :=
    List.Nodup.sublist ((List.filter_sublist base).map Prod.fst) hnodbase
  have hnodsort : ((fl.insertionSort sndLe).map Prod.fst).Nodup :=
    ((hsortperm.map Prod.fst).symm).nodup hnodfl
  have hnodout : ((find_worst_points_col pts img s a k lenf).map Prod.fst).Nodup := by
    rw [hout]
    exact List.Nodup.sublist ((List.take_sublist _ _).map Prod.fst) hnodsort
  have hboundout : ∀ iv ∈ find_worst_points_col pts img s a k lenf, iv.1 < pts.length := by
    intro iv hiv
    rw [hout] at hiv
    have h1 : iv ∈ fl := hsortperm.subset (List.mem_of_mem_take hiv)
    exact hbnd iv (List.mem_of_mem_filter h1)
  refine ⟨⟨hnodout, hboundout⟩, ?_⟩
  set out := find_worst_points_col pts img s a k lenf with houtdef
  set dec := (out.insertionSort idxLe).reverse with hdec
  have hdecperm : dec.Perm out :=
    (List.reverse_perm _).trans (List.perm_insertionSort idxLe out)
  have hdecsorted : dec.Pairwise (fun x y => idxLe y x) := by
    rw [hdec, List.pairwise_reverse]
    exact (List.sorted_insertionSort idxLe out).imp (fun h => h)
  have hpwle : (dec.map Prod.fst).Pairwise (fun i j => j ≤ i) := by
    rw [List.pairwise_map]
    exact hdecsorted.imp (fun h => h)
  have hnoddec : (dec.map Prod.fst).Nodup := ((hdecperm.map Prod.fst).symm).nodup hnodout
  have hpwlt : (dec.map Prod.fst).Pairwise (fun i j => j < i) := by
    have hand := List.Pairwise.and hpwle hnoddec
    exact hand.imp (fun h => by omega)
  have hbdec : ∀ i ∈ dec.map Prod.fst, i < pts.length := by
    intro i hi
    have h1 : i ∈ out.map Prod.fst := (hdecperm.map Prod.fst).subset hi
    obtain ⟨iv, hiv, rfl⟩ := List.mem_map.mp h1
    exact hboundout iv hiv
  obtain ⟨rem, hrem⟩ := applyRemovals_desc dummySeg (dec.map Prod.fst) pts hpwlt hbdec
  exact ⟨rem, hrem⟩

/-- Witness for C10 at a concrete segment list. -/
theorem find_worst_removals_safe_witness :
    ((find_worst_points_col [((0, 0), (3, 4), ⟨9, 9, 9⟩), ((3, 4), (6, 8), ⟨9, 9, 9⟩)]
      imgColZero 1 1 2 (fun _ _ => 5)).map Prod.fst).Nodup :=
  (find_worst_removals_safe [((0, 0), (3, 4), ⟨9, 9, 9⟩), ((3, 4), (6, 8), ⟨9, 9, 9⟩)]
    imgColZero 1 1 2 (fun _ _ => 5)).1.1

/-! ## Batch size management (src/src/style.rs lines 238, 245)

`max_at_once` starts at `min(args.max_strings / 10, 100)` and at the top of
each outer-loop iteration is clamped by `min(max_at_once, 100)`.  The inner
phases update it (growth / shrink); we abstract that update as a function
`upd` so the clamping structure itself can be isolated. -/

def initBatch (maxStrings : ℕ) : ℕ := min (maxStrings / 10) 100

def batchIter (upd : ℕ → ℕ) : ℕ → ℕ → ℕ
  | b, 0 => b
  | b, Nat.succ t => batchIter upd (upd (min b 100)) t

/-- Modelled from the spec: a cap that starts at `cap` and is decremented
by `d` at each outer iteration; the spec claims the code behaves like
`d = 1`, `cap = 100`. -/
def batchIterCapD (upd : ℕ → ℕ) (d : ℕ) : ℕ → ℕ → ℕ → ℕ
  | b, _, 0 => b
  | b, cap, Nat.succ t => batchIterCapD upd d (upd (min b cap)) (cap - d) t

theorem batchIter_eq_capD_zero (upd : ℕ → ℕ) (t : ℕ) :
    ∀ b : ℕ, batchIter upd b t = batchIterCapD upd 0 b 100 t := by
  induction t with
  | zero => intro b; rfl
  | succ t ih =>
    intro b
    show batchIter upd (upd (min b 100)) t = batchIterCapD upd 0 (upd (min b 100)) (100 - 0) t
    rw [Nat.sub_zero]
    exact ih (upd (min b 100))

/-- C7: the batch size is initialized to min(max_strings / 10, 100), and at
the top of every outer iteration it is clamped against the CONSTANT cap
100: the evolution equals the capped model with decrement 0, not the
spec's decrement 1. -/
theorem batch_cap_constant (upd : ℕ → ℕ) (m b t : ℕ) :
    initBatch m = min (m / 10) 100 ∧
    batchIter upd b (t + 1) = batchIter upd (upd (min b 100)) t ∧
    batchIter upd b t = batchIterCapD upd 0 b 100 t :=
  ⟨rfl, rfl, batchIter_eq_capD_zero upd t b⟩

/-- Counterexample to the decaying cap: with the identity update and
batch 100, after two outer iterations the code still holds 100, while a
cap decremented by 1 per iteration would clamp it to 99. -/
theorem batch_cap_not_decaying :
    batchIter id 100 2 = 100 ∧ batchIterCapD id 1 100 100 2 = 99 ∧
    batchIter id 100 2 ≠ batchIterCapD id 1 100 100 2 := by
  refine ⟨rfl, rfl, ?_⟩
  decide

/-! ## The optimizer main loop (src/src/style.rs, fn implementation)

The loop calls optimum::find_best_points and find_worst_points, whose
source is not in the repository; following the spec they are modelled as
find_best_points_col / find_worst_points_col above but scoring with
RefImage::score_change_on_add / score_change_on_sub over the imagery.rs
reference image (spec section 4.5), with the spec's candidate set of all
unordered pairs of distinct pins.  The f64 batch-size factors 1.1 and 0.9
are idealized as exact rationals; at every batch size reached below the
ideal and the f64 truncations agree. -/

/-- The pixel-line entries of a stored line segment. -/
def segEntries (s a : ℚ) (lenf : Pt → Pt → ℚ) (t : Pt × Pt × Rgb) : Entries :=
  pixLineColEntries t.1 t.2.1 t.2.2 s a (lenf t.1 t.2.1)

/-- Modelled from the spec: each unordered pair of distinct pins, visited
once. -/
def distinctPairs (pins : List Pt) : List (Pt × Pt) :=
  (pinPairs pins).filter (fun ab => decide (ab.1 ≠ ab.2))

/-- Modelled from the spec: find_best_points, with every distinct pin pair
combined with every palette color, scored by score_change_on_add; strictly
negative scores kept, sorted ascending, first k returned. -/
def findBestSpec (pins : List Pt) (I : Img) (s a : ℚ) (rgbs : List Rgb) (k : ℕ)
    (lenf : Pt → Pt → ℚ) : List ((Pt × Pt × Rgb) × ℤ) :=
  ((((distinctPairs pins).flatMap (fun ab => rgbs.map (fun c =>
    ((ab.1, ab.2, c), scoreChangeOnAdd I (segEntries s a lenf (ab.1, ab.2, c)))))).filter
      (fun x => decide (x.2 < 0))).insertionSort sndLe).take k

/-- Modelled from the spec: find_worst_points, scoring each stored segment's
removal by score_change_on_sub; strictly negative scores kept, sorted
ascending, first k returned. -/
def findWorstSpec (segs : List (Pt × Pt × Rgb)) (I : Img) (s a : ℚ) (k : ℕ)
    (lenf : Pt → Pt → ℚ) : List (ℕ × ℤ) :=
  (((segs.enum.map (fun ie =>
    (ie.1, scoreChangeOnSub I (segEntries s a lenf ie.2)))).filter
      (fun x => decide (x.2 < 0))).insertionSort sndLe).take k

/-- The mutable state of fn implementation's main loop. -/
structure LoopSt where
  img : Img
  segs : List (Pt × Pt × Rgb)
  keepAdd : Bool
  keepRem : Bool
  maxAtOnce : ℕ

/-- (max_at_once as f64 * 1.1) as usize, idealized exactly. -/
def growthN (b : ℕ) : ℕ := 11 * b / 10

/-- (max_at_once as f64 * 0.9) as usize, idealized exactly. -/
def shrinkN (b : ℕ) : ℕ := 9 * b / 10

/-- One pass of the inner `while keep_adding` body. -/
def addStep (pins : List Pt) (rgbs : List Rgb) (s a : ℚ) (lenf : Pt → Pt → ℚ)
    (maxStrings : ℕ) (st : LoopSt) : LoopSt :=
  let pts := findBestSpec pins st.img s a rgbs
    (min (maxStrings - st.segs.length) st.maxAtOnce) lenf
  let kr := if pts.isEmpty then st.keepRem else true
  let m := if pts.length = st.maxAtOnce then growthN st.maxAtOnce else st.maxAtOnce
  let img2 := pts.foldl (fun J x => addAssignLine J (segEntries s a lenf x.1)) st.img
  let segs2 := st.segs ++ pts.map Prod.fst
  let ka := if maxStrings ≤ segs2.length then false else !pts.isEmpty
  ⟨img2, segs2, ka, kr, m⟩

/-- The inner `while keep_adding` loop, fuelled. -/
def addLoop (pins : List Pt) (rgbs : List Rgb) (s a : ℚ) (lenf : Pt → Pt → ℚ)
    (maxStrings : ℕ) : ℕ → LoopSt → LoopSt
  | 0, st => st
  | Nat.succ f, st =>
      if st.keepAdd then
        addLoop pins rgbs s a lenf maxStrings f (addStep pins rgbs s a lenf maxStrings st)
      else st

/-- One pass of the inner `while keep_removing` body: the returned indices
are sorted by index, reversed, and applied by remove(i) (modelled by
eraseIdx) with the removed segment's line subtracted from the image. -/
def removeStep (s a : ℚ) (lenf : Pt → Pt → ℚ) (st : LoopSt) : LoopSt :=
  let ws := findWorstSpec st.segs st.img s a
    (min st.segs.length (max 1 (st.maxAtOnce / 10))) lenf
  let dec := (ws.insertionSort idxLe).reverse
  let ka := if ws.isEmpty then st.keepAdd else true
  let pr := dec.foldl (fun (p : List (Pt × Pt × Rgb) × Img) iv =>
      (p.1.eraseIdx iv.1, subAssignLine p.2 (segEntries s a lenf (p.1.getD iv.1 dummySeg))))
    (st.segs, st.img)
  let kr := if pr.1.isEmpty then false else !ws.isEmpty
  ⟨pr.2, pr.1, ka, kr, st.maxAtOnce⟩

/-- The inner `while keep_removing` loop, fuelled. -/
def removeLoop (s a : ℚ) (lenf : Pt → Pt → ℚ) : ℕ → LoopSt → LoopSt
  | 0, st => st
  | Nat.succ f, st =>
      if st.keepRem then removeLoop s a lenf f (removeStep s a lenf st) else st

/-- One outer-loop iteration: clamp the batch, run the add phase, shrink the
batch, run the remove phase. -/
def outerIter (pins : List Pt) (rgbs : List Rgb) (s a : ℚ) (lenf : Pt → Pt → ℚ)
    (maxStrings fuel : ℕ) (st : LoopSt) : LoopSt :=
  let st1 := addLoop pins rgbs s a lenf maxStrings fuel
    { st with maxAtOnce := min st.maxAtOnce 100 }
  removeLoop s a lenf fuel { st1 with maxAtOnce := max 1 (shrinkN st1.maxAtOnce) }

theorem scoreChangeOnAdd_eq_wrap (I : Img) (es : Entries) :
    scoreChangeOnAdd I es = wrap ((es.map (entryDiff I)).sum) := by
  unfold scoreChangeOnAdd
  rw [i64sum_eq_wrap]
  apply wrap_congr
  have hmap : es.map (fun e =>
      i64sub (pixel_score (Rgb.add (getPx I e.1) e.2)) (pixel_score (getPx I e.1)))
      = (es.map (entryDiff I)).map wrap := by
    rw [List.map_map]
    apply List.map_congr_left
    intro e _
    show i64sub (pixel_score (Rgb.add (getPx I e.1) e.2)) (pixel_score (getPx I e.1))
        = wrap (entryDiff I e)
    unfold i64sub entryDiff
    rw [pixel_score_eq_wrap, pixel_score_eq_wrap, wrap_wrap_sub]
  rw [hmap]
  exact sum_map_wrap_modEq _

/-- C4 (amended): what the loop does guarantee is per accepted line, not per
outer iteration: every candidate accepted by the add phase's search has
strictly negative predicted score change, and - when its pixel entries have
pairwise-distinct keys, lie in bounds, and the true score change does not
overflow i64 - adding that one line to the image it was scored against
changes the true score by exactly that prediction, hence strictly decreases
it.  Whole outer iterations need not decrease the score (counterexample). -/
theorem add_accepted_strictly_decreases (pins : List Pt) (I : Img) (s a : ℚ)
    (rgbs : List Rgb) (k : ℕ) (lenf : Pt → Pt → ℚ) (x : (Pt × Pt × Rgb) × ℤ)
    (hx : x ∈ findBestSpec pins I s a rgbs k lenf)
    (hnd : ((segEntries s a lenf x.1).map Prod.fst).Nodup)
    (hb : ∀ e ∈ segEntries s a lenf x.1, inBounds I e.1)
    (hlo : i64Lo ≤ ((segEntries s a lenf x.1).map (entryDiff I)).sum)
    (hhi : ((segEntries s a lenf x.1).map (entryDiff I)).sum ≤ i64Hi) :
    x.2 < 0 ∧
    plainScore (addAssignLine I (segEntries s a lenf x.1)) = plainScore I + x.2 ∧
    plainScore (addAssignLine I (segEntries s a lenf x.1)) < plainScore I := by
  unfold findBestSpec at hx
  have hx1 := List.mem_of_mem_take hx
  have hx2 := (List.perm_insertionSort sndLe _).subset hx1
  have hneg : x.2 < 0 := by simpa using List.of_mem_filter hx2
  have hmem := List.mem_of_mem_filter hx2
  have hsc : x.2 = scoreChangeOnAdd I (segEntries s a lenf x.1) := by
    rw [List.mem_flatMap] at hmem
    obtain ⟨ab, _, hx3⟩ := hmem
    rw [List.mem_map] at hx3
    obtain ⟨c, _, hx4⟩ := hx3
    rw [← hx4]
  have hwrap := scoreChangeOnAdd_eq_wrap I (segEntries s a lenf x.1)
  rw [wrap_eq_self hlo hhi] at hwrap
  have hplain := plainScore_addAssign (segEntries s a lenf x.1) I hnd hb
  have hval : x.2 = ((segEntries s a lenf x.1).map (entryDiff I)).sum := hsc.trans hwrap
  refine ⟨hneg, ?_, ?_⟩
  · rw [hplain, hval]
  · rw [hplain]
    omega

/-- The concrete pins of the non-decreasing outer iteration: three collinear
pins with Pythagorean spacing, so all lengths are rational. -/
def pinsC4 : List Pt := [(0, 0), (3, 4), (6, 8)]

/-- The single palette color of the counterexample. -/
def rgbC4 : Rgb := ⟨2, 0, 0⟩

/-- The exact line lengths of the three pin pairs of pinsC4. -/
def lenfC4 : Pt → Pt → ℚ := fun u v =>
  if u = ((0, 0) : Pt) ∧ v = ((6, 8) : Pt) then 10 else 5

/-- An all-black reference image of the given size. -/
def zeroImg (w h : ℕ) : Img := List.replicate h (List.replicate w ⟨0, 0, 0⟩)

/-- The 7-by-9 starting reference image of the counterexample. -/
def imgC4 : Img :=
  setPx (setPx (setPx (zeroImg 7 9) (0, 0) ⟨-10, 0, 0⟩) (3, 4) ⟨-2, 0, 0⟩) (6, 8) ⟨-7, 0, 0⟩

/-- The state on first entering the outer loop with max_strings 230:
no segments, both flags true, max_at_once = min(230 / 10, 100) = 23. -/
def stC4 : LoopSt := ⟨imgC4, [], true, true, initBatch 230⟩

/-- Witness for the amended C4 theorem: the candidate accepted first on the
counterexample's starting image (the full line, score change -80) strictly
decreases the score when added alone. -/
theorem add_accepted_strictly_decreases_witness :
    plainScore (addAssignLine imgC4 (segEntries 5 1 lenfC4 ((0, 0), (6, 8), rgbC4)))
      < plainScore imgC4 :=
  (add_accepted_strictly_decreases pinsC4 imgC4 5 1 [rgbC4] 23 lenfC4
    ((((0, 0), (6, 8), rgbC4)), -80)
    (of_decide_eq_true (by with_unfolding_all rfl))
    (of_decide_eq_true (by with_unfolding_all rfl))
    (of_decide_eq_true (by with_unfolding_all rfl))
    (of_decide_eq_true (by with_unfolding_all rfl))
    (of_decide_eq_true (by with_unfolding_all rfl))).2.2

set_option maxRecDepth 100000 in
/-- Counterexample to C4 as stated: from the concrete entry state stC4 the
loop is entered (a flag is true), yet after one full outer iteration (fuel 3
exceeds both inner loops' trips: the add phase adds the two negative lines
and then finds none, the remove phase removes both and empties the list) the
image - and so the score - is exactly what it was, while keep_adding is true
again, so the loop neither decreased the score nor exited.  The length
oracle is exact: its squares match the squared pin distances. -/
theorem outer_iteration_no_decrease :
    (stC4.keepAdd || stC4.keepRem) = true ∧
    lenfC4 (0, 0) (3, 4) * lenfC4 (0, 0) (3, 4)
      = dist2 (ptToVec (0, 0)) (ptToVec (3, 4)) ∧
    lenfC4 (0, 0) (6, 8) * lenfC4 (0, 0) (6, 8)
      = dist2 (ptToVec (0, 0)) (ptToVec (6, 8)) ∧
    lenfC4 (3, 4) (6, 8) * lenfC4 (3, 4) (6, 8)
      = dist2 (ptToVec (3, 4)) (ptToVec (6, 8)) ∧
    (outerIter pinsC4 [rgbC4] 5 1 lenfC4 230 3 stC4).img = imgC4 ∧
    plainScore (outerIter pinsC4 [rgbC4] 5 1 lenfC4 230 3 stC4).img
      = plainScore stC4.img ∧
    (outerIter pinsC4 [rgbC4] 5 1 lenfC4 230 3 stC4).keepAdd = true :=
  of_decide_eq_true (by with_unfolding_all rfl)

/-- Witness for C7 at concrete numbers: max_strings 230 gives initial batch
min(23, 100), and three iterations from batch 50 follow the constant-cap
model. -/
theorem batch_cap_constant_witness :
    initBatch 230 = min (230 / 10) 100 ∧
    batchIter id 50 (3 + 1) = batchIter id (id (min 50 100)) 3 ∧
    batchIter id 50 3 = batchIterCapD id 0 50 100 3 :=
  batch_cap_constant id 230 50 3
